import Mathlib

set_option maxRecDepth 8000

/-!
Verification of the staged book-generation pipeline (ai-book-writer).

This file gives a shallow embedding, in Lean, of the pure computational
content of the program:

* the outline parser `parse_outline_to_chapters` of `web_app.py`
  (regex header scan, deduplication, sorting, stub fallback);
* the per-stage response extraction of `BookAgents.generate_content`
  in `agents.py`;
* the chat request builders `generate_chat_response` and
  `generate_chat_response_stream` of `agents.py`;
* the streaming finalize generators of `web_app.py`
  (`finalize_world_stream`, `finalize_characters_stream`,
  `finalize_outline_stream`) and the plain chat streaming generator
  (`world_chat_stream`), modelled as ordered traces of emitted events
  and file writes.

Strings are modelled as `List Char` over their ASCII content; Python
regular expressions are modelled by explicit backtracking matchers for
the two concrete patterns the program uses.
-/

/-! ## Basic character classes and string helpers -/

/-- Python whitespace (`\s` of the `re` module and `str.strip`),
restricted to the ASCII range in which all texts of this program live. -/
def isPySpace (c : Char) : Bool :=
  c = ' ' || c = '\t' || c = '\n' || c = '\r' || c = '\x0b' || c = '\x0c'

/-- Python `\d` on ASCII text: the decimal digits. -/
def isPyDigit (c : Char) : Bool := c.isDigit

/-- Python `str.strip()`: remove leading and trailing whitespace. -/
def pyStrip (s : List Char) : List Char :=
  ((s.dropWhile isPySpace).reverse.dropWhile isPySpace).reverse

/-- Python str.split on a newline separator: split into lines at every newline. -/
def splitNl : List Char → List (List Char)
  | [] => [[]]
  | c :: s =>
    if c = '\n' then [] :: splitNl s
    else
      match splitNl s with
      | [] => [[c]]
      | l :: ls => (c :: l) :: ls

/-- Python newline join of a list of lines. -/
def joinNl (ls : List (List Char)) : List Char := List.intercalate ['\n'] ls

/-- Python `int()` of a nonempty string of decimal digits. -/
def natOfDigits (ds : List Char) : Nat :=
  ds.foldl (fun a c => a * 10 + (c.toNat - '0'.toNat)) 0

/-- Remove the pattern `pat` from the front of `s`, if it is a prefix. -/
def stripPre : List Char → List Char → Option (List Char)
  | [], s => some s
  | _ :: _, [] => none
  | p :: ps, c :: cs => if c = p then stripPre ps cs else none

/-- Python `str.find(pat)`: index of the first occurrence of `pat` in `s`,
`none` when there is no occurrence (Python returns `-1`). -/
def findSub (pat : List Char) : List Char → Option Nat
  | [] => if pat = [] then some 0 else none
  | c :: s =>
    if pat.isPrefixOf (c :: s) then some 0
    else (findSub pat s).map (fun i => i + 1)

/-! ## The two regular expressions of `parse_outline_to_chapters`

The file web_app.py uses re.finditer with the raw pattern
Chapter, whitespace run, digit group, colon, whitespace run, line group
for the header scan, and re.search with the shorter raw pattern
Chapter, whitespace run, digit group, colon to delimit a chapter body.
Both are literal-word patterns with greedy one-or-more classes; the only
place backtracking matters is `\s+([^\n]+)` where the whitespace run and
the line class overlap on blanks and tabs. -/

def chapterWord : List Char := "Chapter".toList

/-- Match `Chapter\s+(\d+):` at the head of `s`.  Returns the digit group
and the remainder after the colon.  The pattern is deterministic: the
whitespace <&> digit classes and the colon are mutually exclusive, so greedy
matching needs no backtracking. -/
def matchNumAt (s : List Char) : Option (List Char × List Char) :=
  match stripPre chapterWord s with
  | none => none
  | some s1 =>
    if s1.takeWhile isPySpace = [] then none
    else
      if (s1.dropWhile isPySpace).takeWhile isPyDigit = [] then none
      else
        match (s1.dropWhile isPySpace).dropWhile isPyDigit with
        | ':' :: s4 => some ((s1.dropWhile isPySpace).takeWhile isPyDigit, s4)
        | _ => none

/-- Greedy `[^\n]+` at the head of `s`: the maximal nonempty run of
non-newline characters, with the remainder. -/
def takeLine (s : List Char) : Option (List Char × List Char) :=
  if s.takeWhile (fun c => c != '\n') = [] then none
  else some (s.takeWhile (fun c => c != '\n'), s.dropWhile (fun c => c != '\n'))

/-- Match `\s*([^\n]+)` at the head of `s` with the greedy backtracking
order of the `re` module: the whitespace star first extends as far as
possible and gives characters back one at a time until the line group can
match. -/
def matchTailRest : List Char → Option (List Char × List Char)
  | [] => none
  | c :: s =>
    if isPySpace c then
      match matchTailRest s with
      | some r => some r
      | none => takeLine (c :: s)
    else takeLine (c :: s)

/-- Match `\s+([^\n]+)` at the head of `s` (greedy, with backtracking). -/
def matchTail : List Char → Option (List Char × List Char)
  | [] => none
  | c :: s => if isPySpace c then matchTailRest s else none

/-- Match the full header pattern `Chapter\s+(\d+):\s+([^\n]+)` at the head
of `s`.  Returns the digit group, the title group, and the remainder after
the match. -/
def matchHeaderAt (s : List Char) : Option (List Char × List Char × List Char) :=
  match matchNumAt s with
  | none => none
  | some (d, s4) =>
    match matchTail s4 with
    | none => none
    | some (t, rest) => some (d, t, rest)

/-! Length facts about the matchers, needed to drive the scan. -/

theorem stripPre_length {pat s r : List Char} (h : stripPre pat s = some r) :
    r.length + pat.length = s.length := by
  induction pat generalizing s with
  | nil => simp [stripPre] at h; simp [h]
  | cons p ps ih =>
    match s with
    | [] => simp [stripPre] at h
    | c :: cs =>
      simp only [stripPre] at h
      split at h
      · have := ih h
        simp [List.length_cons]
        omega
      · exact absurd h (by simp)

theorem stripPre_prefix {pat s r : List Char} (h : stripPre pat s = some r) :
    pat <+: s := by
  induction pat generalizing s with
  | nil => exact List.nil_prefix
  | cons p ps ih =>
    match s with
    | [] => simp [stripPre] at h
    | c :: cs =>
      simp only [stripPre] at h
      split at h
      · rename_i hc
        subst hc
        exact List.cons_prefix_cons.mpr ⟨rfl, ih h⟩
      · exact absurd h (by simp)

theorem stripPre_append (pat t : List Char) : stripPre pat (pat ++ t) = some t := by
  induction pat with
  | nil => simp [stripPre]
  | cons p ps ih => simp [stripPre, ih]

theorem length_dropWhile_le (p : Char → Bool) (s : List Char) :
    (s.dropWhile p).length ≤ s.length := by
  induction s with
  | nil => simp
  | cons c cs ih =>
    by_cases h : p c
    · simp [List.dropWhile_cons, h]; omega
    · simp [List.dropWhile_cons, h]

theorem takeLine_length {s t r : List Char} (h : takeLine s = some (t, r)) :
    r.length ≤ s.length ∧ t ≠ [] := by
  unfold takeLine at h
  split at h
  · exact absurd h (by simp)
  · rename_i hne
    simp only [Option.some.injEq, Prod.mk.injEq] at h
    obtain ⟨ht, hr⟩ := h
    subst ht; subst hr
    exact ⟨length_dropWhile_le _ _, hne⟩

theorem matchTailRest_length {s t r : List Char} (h : matchTailRest s = some (t, r)) :
    r.length ≤ s.length := by
  induction s generalizing t r with
  | nil => simp [matchTailRest] at h
  | cons c cs ih =>
    simp only [matchTailRest] at h
    split at h
    · cases hm : matchTailRest cs with
      | some v =>
        obtain ⟨tv, rv⟩ := v
        rw [hm] at h
        simp only [Option.some.injEq, Prod.mk.injEq] at h
        obtain ⟨h1, h2⟩ := h
        subst h1; subst h2
        have := ih hm
        simp only [List.length_cons]
        omega
      | none =>
        rw [hm] at h
        have := (takeLine_length h).1
        exact this
    · exact (takeLine_length h).1

theorem matchTail_length {s t r : List Char} (h : matchTail s = some (t, r)) :
    r.length < s.length := by
  match s with
  | [] => simp [matchTail] at h
  | c :: cs =>
    simp only [matchTail] at h
    split at h
    · have := matchTailRest_length h
      simp [List.length_cons]
      omega
    · exact absurd h (by simp)

theorem matchNumAt_length {s d r : List Char} (h : matchNumAt s = some (d, r)) :
    r.length < s.length := by
  unfold matchNumAt at h
  cases hs : stripPre chapterWord s with
  | none => rw [hs] at h; exact absurd h (by simp)
  | some s1 =>
    rw [hs] at h
    dsimp only at h
    split at h
    · exact absurd h (by simp)
    · split at h
      · exact absurd h (by simp)
      · split at h
        · rename_i s4 heq
          simp only [Option.some.injEq, Prod.mk.injEq] at h
          obtain ⟨_, hr⟩ := h
          subst hr
          have h1 := stripPre_length hs
          have h2 : (s1.dropWhile isPySpace).length ≤ s1.length := length_dropWhile_le _ _
          have h3 : ((s1.dropWhile isPySpace).dropWhile isPyDigit).length ≤
              (s1.dropWhile isPySpace).length := length_dropWhile_le _ _
          have h4 : (':' :: s4).length = ((s1.dropWhile isPySpace).dropWhile isPyDigit).length := by
            rw [heq]
          simp only [List.length_cons] at h4
          have h5 : chapterWord.length = 7 := by decide
          omega
        · exact absurd h (by simp)

theorem matchNumAt_chapterWord {s d r : List Char} (h : matchNumAt s = some (d, r)) :
    chapterWord <+: s := by
  unfold matchNumAt at h
  cases hs : stripPre chapterWord s with
  | none => rw [hs] at h; exact absurd h (by simp)
  | some s1 => exact stripPre_prefix hs

theorem matchHeaderAt_length {s d t r : List Char}
    (h : matchHeaderAt s = some (d, t, r)) : r.length < s.length := by
  unfold matchHeaderAt at h
  cases hn : matchNumAt s with
  | none => rw [hn] at h; exact absurd h (by simp)
  | some v =>
    obtain ⟨dv, sv⟩ := v
    rw [hn] at h
    dsimp only at h
    cases ht : matchTail sv with
    | none => rw [ht] at h; exact absurd h (by simp)
    | some w =>
      obtain ⟨tw, rw'⟩ := w
      rw [ht] at h
      simp only [Option.some.injEq, Prod.mk.injEq] at h
      obtain ⟨_, _, hr⟩ := h
      subst hr
      have h1 := matchNumAt_length hn
      have h2 := matchTail_length ht
      omega

theorem matchHeaderAt_chapterWord {s d t r : List Char}
    (h : matchHeaderAt s = some (d, t, r)) : chapterWord <+: s := by
  unfold matchHeaderAt at h
  cases hn : matchNumAt s with
  | none => rw [hn] at h; exact absurd h (by simp)
  | some v => exact matchNumAt_chapterWord (d := v.1) (r := v.2) (by simp [hn])

/-! ## The header scan (`re.finditer`)

`finditer` yields non-overlapping matches left to right: from each
position the leftmost match is taken and the scan resumes at its end.
The scan is written with explicit fuel so that it is computable by the
kernel; `scanHeaders` supplies the input length as fuel, which the
strict decrease of `matchHeaderAt` shows to be enough. -/

def scanGo : Nat → List Char → List (Nat × List Char × List Char)
  | 0, _ => []
  | _ + 1, [] => []
  | n + 1, c :: s =>
    match matchHeaderAt (c :: s) with
    | some (d, t, rest) => (natOfDigits d, t, c :: s) :: scanGo n rest
    | none => scanGo n s

/-- All matches of the header pattern in `s`, in text order.  Each entry
carries the chapter number, the raw title group, and the suffix of `s`
starting at the match (standing for the match start position). -/
def scanHeaders (s : List Char) : List (Nat × List Char × List Char) :=
  scanGo s.length s

theorem scanGo_nil (n : Nat) : scanGo n [] = [] := by
  cases n <;> rfl

theorem scanGo_fuel_irrel : ∀ n m s, s.length ≤ n → s.length ≤ m →
    scanGo n s = scanGo m s := by
  intro n
  induction n with
  | zero =>
    intro m s hn _
    have : s = [] := by
      cases s with
      | nil => rfl
      | cons c cs => simp at hn
    subst this
    rw [scanGo_nil, scanGo_nil]
  | succ n ih =>
    intro m s hn hm
    cases s with
    | nil => rw [scanGo_nil, scanGo_nil]
    | cons c cs =>
      cases m with
      | zero => simp at hm
      | succ m =>
        show scanGo (n + 1) (c :: cs) = scanGo (m + 1) (c :: cs)
        simp only [scanGo]
        cases hmatch : matchHeaderAt (c :: cs) with
        | some v =>
          obtain ⟨d, t, rest⟩ := v
          have hlt := matchHeaderAt_length hmatch
          simp only [List.length_cons] at hlt hn hm
          have h1 : rest.length ≤ n := by omega
          have h2 : rest.length ≤ m := by omega
          dsimp only
          rw [ih m rest h1 h2]
        | none =>
          have h1 : cs.length ≤ n := by simp only [List.length_cons] at hn; omega
          have h2 : cs.length ≤ m := by simp only [List.length_cons] at hm; omega
          dsimp only
          exact ih m cs h1 h2

theorem scanHeaders_nil : scanHeaders [] = [] := rfl

theorem scanHeaders_cons_some {c : Char} {s d t rest : List Char}
    (h : matchHeaderAt (c :: s) = some (d, t, rest)) :
    scanHeaders (c :: s) = (natOfDigits d, t, c :: s) :: scanHeaders rest := by
  unfold scanHeaders
  have hlt := matchHeaderAt_length h
  simp only [List.length_cons, scanGo, h]
  congr 1
  exact scanGo_fuel_irrel s.length rest.length rest
    (by simp [List.length_cons] at hlt; omega) le_rfl

theorem scanHeaders_cons_none {c : Char} {s : List Char}
    (h : matchHeaderAt (c :: s) = none) :
    scanHeaders (c :: s) = scanHeaders s := by
  unfold scanHeaders
  simp only [List.length_cons, scanGo, h]

/-! ## Chapter bodies

For a match starting at position `p` (here: at the suffix `u`), the code
searches the short pattern in the text from position p + 1 on, and slices
the body from p up to the found start (shifted by one), or to the end of the
text when nothing is found; then strips it, splits it into lines and joins
all lines after the header line. -/

/-- Offset of the leftmost match of `Chapter\s+(\d+):` in `s`
(`re.search` on the short pattern), if any. -/
def findNum : List Char → Option Nat
  | [] => none
  | c :: s =>
    if (matchNumAt (c :: s)).isSome then some 0
    else (findNum s).map (fun i => i + 1)

/-- The `prompt` field computed for a match whose start suffix is `u`. -/
def chapterBody (u : List Char) : List Char :=
  let seg :=
    match findNum u.tail with
    | some p => u.take (1 + p)
    | none => u
  joinNl ((splitNl (pyStrip seg)).drop 1)

/-! ## Records, deduplication, sorting, fallback -/

/-- One parsed chapter: the dictionary
with keys chapter_number, title, prompt built by the parser. -/
structure ChapterRec where
  chapter_number : Nat
  title : List Char
  prompt : List Char
deriving DecidableEq

/-- The match loop of `parse_outline_to_chapters`: walk the matches in
text order, skip any chapter number already in `seen_chapters`, and build
a record (with stripped title and extracted body) for each new number. -/
def buildRecords : List (Nat × List Char × List Char) → List Nat → List ChapterRec
  | [], _ => []
  | (n, t, u) :: ms, seen =>
    if n ∈ seen then buildRecords ms seen
    else ⟨n, pyStrip t, chapterBody u⟩ :: buildRecords ms (n :: seen)

/-- Insert a record into a list sorted by ascending chapter number. -/
def insertRec (r : ChapterRec) : List ChapterRec → List ChapterRec
  | [] => [r]
  | x :: xs =>
    if x.chapter_number ≤ r.chapter_number then x :: insertRec r xs
    else r :: x :: xs

/-- The final sort of the records by the chapter_number key.  The records
always carry pairwise distinct chapter numbers (the loop deduplicates), so
every comparison sort produces the same list as CPython stable sort. -/
def sortByNum : List ChapterRec → List ChapterRec
  | [] => []
  | r :: rs => insertRec r (sortByNum rs)

/-- The stub record synthesized by the fallback for chapter `i`. -/
def stubRec (i : Nat) : ChapterRec :=
  ⟨i, ("Chapter " ++ toString i).toList, ("Content for chapter " ++ toString i).toList⟩

def outlineMarker : List Char := "OUTLINE:".toList

def endOutlineMarker : List Char := "END OF OUTLINE".toList

/-- Step 1 of the parser: when both `OUTLINE:` and `END OF OUTLINE` occur,
restrict to the stripped text strictly between the first occurrences of the
two markers; otherwise keep the whole text. -/
def restrictOutline (s : List Char) : List Char :=
  match findSub outlineMarker s, findSub endOutlineMarker s with
  | some i, some j =>
    pyStrip ((s.drop (i + outlineMarker.length)).take (j - (i + outlineMarker.length)))
  | _, _ => s

/-- Steps 2 to 6 of the parser, on the already restricted text: scan,
deduplicate, sort, and fall back to `num_chapters` stubs when no header
was found. -/
def parseCore (t : List Char) (num_chapters : Nat) : List ChapterRec :=
  let recs := buildRecords (scanHeaders t) []
  let sorted := sortByNum recs
  if sorted = [] then (List.range num_chapters).map (fun k => stubRec (k + 1))
  else sorted

/-- The function `parse_outline_to_chapters(outline_content, num_chapters)` of
`web_app.py`.  The `try/except` of the original is not modelled: every
operation in the body is total on string inputs, so the exception handler
is unreachable. -/
def parse_outline_to_chapters (s : List Char) (num_chapters : Nat) : List ChapterRec :=
  parseCore (restrictOutline s) num_chapters

/-! ## Facts about sorting, deduplication and the fallback -/

theorem findSub_sound {pat s : List Char} {i : Nat} (h : findSub pat s = some i) :
    pat <+: s.drop i := by
  induction s generalizing i with
  | nil =>
    simp only [findSub] at h
    split at h
    · rename_i hpat
      simp only [Option.some.injEq] at h
      subst h
      simp [hpat]
    · exact absurd h (by simp)
  | cons c cs ih =>
    simp only [findSub] at h
    split at h
    · rename_i hpre
      simp only [Option.some.injEq] at h
      subst h
      simpa using List.isPrefixOf_iff_prefix.mp hpre
    · cases hf : findSub pat cs with
      | none => rw [hf] at h; exact absurd h (by simp)
      | some i' =>
        rw [hf] at h
        simp only [Option.map_some', Option.some.injEq] at h
        subst h
        simpa using ih hf

theorem insertRec_perm (r : ChapterRec) (l : List ChapterRec) :
    List.Perm (insertRec r l) (r :: l) := by
  induction l with
  | nil => exact List.Perm.refl _
  | cons x xs ih =>
    unfold insertRec
    split
    · exact (List.Perm.cons x ih).trans (List.Perm.swap r x xs)
    · exact List.Perm.refl _

theorem sortByNum_perm (l : List ChapterRec) : List.Perm (sortByNum l) l := by
  induction l with
  | nil => exact List.Perm.refl _
  | cons r rs ih => exact (insertRec_perm r (sortByNum rs)).trans (List.Perm.cons r ih)

theorem insertRec_sorted {r : ChapterRec} {l : List ChapterRec}
    (h : l.Pairwise (fun a b => a.chapter_number ≤ b.chapter_number)) :
    (insertRec r l).Pairwise (fun a b => a.chapter_number ≤ b.chapter_number) := by
  induction l with
  | nil => simp [insertRec]
  | cons x xs ih =>
    rw [List.pairwise_cons] at h
    obtain ⟨hx, hxs⟩ := h
    unfold insertRec
    split
    · rename_i hle
      rw [List.pairwise_cons]
      refine ⟨?_, ih hxs⟩
      intro y hy
      have hmem : y ∈ r :: xs := (insertRec_perm r xs).mem_iff.mp hy
      rcases List.mem_cons.mp hmem with hy2 | hy2
      · subst hy2; exact hle
      · exact hx y hy2
    · rename_i hgt
      push_neg at hgt
      rw [List.pairwise_cons]
      constructor
      · intro y hy
        rcases List.mem_cons.mp hy with hy | hy
        · subst hy; omega
        · have := hx y hy; omega
      · rw [List.pairwise_cons]
        exact ⟨hx, hxs⟩

theorem sortByNum_sorted (l : List ChapterRec) :
    (sortByNum l).Pairwise (fun a b => a.chapter_number ≤ b.chapter_number) := by
  induction l with
  | nil => simp [sortByNum]
  | cons r rs ih => exact insertRec_sorted ih

theorem sortByNum_length (l : List ChapterRec) : (sortByNum l).length = l.length :=
  (sortByNum_perm l).length_eq

/-- The records built by the match loop always carry pairwise distinct
chapter numbers, none of which is in the incoming `seen` set. -/
theorem buildRecords_nums (ms : List (Nat × List Char × List Char)) :
    ∀ seen, ((buildRecords ms seen).map ChapterRec.chapter_number).Nodup ∧
      ∀ r ∈ buildRecords ms seen, r.chapter_number ∉ seen := by
  induction ms with
  | nil => intro seen; simp [buildRecords]
  | cons m ms ih =>
    intro seen
    obtain ⟨n, t, u⟩ := m
    unfold buildRecords
    split
    · rename_i hmem
      exact ⟨(ih seen).1, fun r hr => (ih seen).2 r hr⟩
    · rename_i hmem
      constructor
      · simp only [List.map_cons, List.nodup_cons]
        refine ⟨?_, (ih (n :: seen)).1⟩
        intro hn
        rw [List.mem_map] at hn
        obtain ⟨r, hr, hrn⟩ := hn
        have := (ih (n :: seen)).2 r hr
        rw [hrn] at this
        exact this (List.mem_cons_self n seen)
      · intro r hr
        rcases List.mem_cons.mp hr with hr | hr
        · subst hr; exact hmem
        · have := (ih (n :: seen)).2 r hr
          intro hseen
          exact this (List.mem_cons_of_mem n hseen)

theorem buildRecords_cons_ne_nil (n : Nat) (t u : List Char)
    (ms : List (Nat × List Char × List Char)) :
    buildRecords ((n, t, u) :: ms) [] ≠ [] := by
  simp [buildRecords]

theorem parse_eq_ite (s : List Char) (m : Nat) :
    parse_outline_to_chapters s m =
      (if sortByNum (buildRecords (scanHeaders (restrictOutline s)) []) = []
       then (List.range m).map (fun k => stubRec (k + 1))
       else sortByNum (buildRecords (scanHeaders (restrictOutline s)) [])) := rfl

/-! ## Claim C8: restriction to the text between the outline markers -/

/-- C8: when the raw text contains both the marker `OUTLINE:` (at first
index `i`) and the marker `END OF OUTLINE` (at first index `j`), the
parser scans for chapter headers only inside the substring strictly
between the two markers, namely the characters after position
`i + 8` and before position `j`; when at least one marker is missing, the
whole text is scanned. -/
theorem c8_marker_restriction (s : List Char) (m : Nat) :
    (∀ i j, findSub outlineMarker s = some i → findSub endOutlineMarker s = some j →
      outlineMarker <+: s.drop i ∧ endOutlineMarker <+: s.drop j ∧
      parse_outline_to_chapters s m =
        parseCore (pyStrip ((s.drop (i + outlineMarker.length)).take
          (j - (i + outlineMarker.length)))) m) ∧
    ((findSub outlineMarker s = none ∨ findSub endOutlineMarker s = none) →
      parse_outline_to_chapters s m = parseCore s m) := by
  constructor
  · intro i j hi hj
    refine ⟨findSub_sound hi, findSub_sound hj, ?_⟩
    unfold parse_outline_to_chapters restrictOutline
    rw [hi, hj]
  · intro h
    unfold parse_outline_to_chapters restrictOutline
    rcases h with h | h
    · rw [h]
    · rw [h]
      cases findSub outlineMarker s <;> rfl

/-- Witness for C8 at concrete inputs: a text with both markers is parsed
from the stripped region between them, and a text with no markers is
parsed whole. -/
theorem c8_witness :
    (parse_outline_to_chapters "intro OUTLINE:\nChapter 1: A\nbody\nEND OF OUTLINE outro".toList 5 =
      parseCore (pyStrip ((("intro OUTLINE:\nChapter 1: A\nbody\nEND OF OUTLINE outro".toList).drop
        (6 + outlineMarker.length)).take (33 - (6 + outlineMarker.length)))) 5) ∧
    parse_outline_to_chapters "Chapter 1: A\nno markers".toList 5 =
      parseCore "Chapter 1: A\nno markers".toList 5 :=
  ⟨((c8_marker_restriction "intro OUTLINE:\nChapter 1: A\nbody\nEND OF OUTLINE outro".toList 5).1
      6 33 (by decide) (by decide)).2.2,
   (c8_marker_restriction "Chapter 1: A\nno markers".toList 5).2 (Or.inl (by decide))⟩

/-! ## Claim C3: stub fallback and independence from the declared count -/

/-- C3: when the scan finds zero recognizable chapter headers, the parser
returns exactly `m` stub records numbered `1..m`, titled `Chapter i`, with
the placeholder prompt `Content for chapter i`; and this fallback is the
only use of the declared chapter count, so as soon as one header is found
the result does not depend on it at all. -/
theorem c3_zero_header_fallback (s : List Char) (m : Nat) (_hm : 1 ≤ m) :
    (scanHeaders (restrictOutline s) = [] →
      parse_outline_to_chapters s m = (List.range m).map (fun k =>
        ChapterRec.mk (k + 1) ("Chapter " ++ toString (k + 1)).toList
          ("Content for chapter " ++ toString (k + 1)).toList)) ∧
    (scanHeaders (restrictOutline s) ≠ [] → ∀ m', 1 ≤ m' →
      parse_outline_to_chapters s m = parse_outline_to_chapters s m') := by
  constructor
  · intro hscan
    rw [parse_eq_ite, hscan]
    rfl
  · intro hscan m' hm'
    rw [parse_eq_ite, parse_eq_ite]
    have hne : sortByNum (buildRecords (scanHeaders (restrictOutline s)) []) ≠ [] := by
      cases hsc : scanHeaders (restrictOutline s) with
      | nil => exact absurd hsc hscan
      | cons x ms =>
        obtain ⟨n, t, u⟩ := x
        intro hnil
        have hlen := sortByNum_length (buildRecords ((n, t, u) :: ms) [])
        rw [hnil] at hlen
        have := buildRecords_cons_ne_nil n t u ms
        cases hb : buildRecords ((n, t, u) :: ms) [] with
        | nil => exact this hb
        | cons y ys => rw [hb] at hlen; simp at hlen
    rw [if_neg hne, if_neg hne]

/-- Witness for C3: a headerless text yields exactly two stubs for a
declared count of two, and a text with one header parses identically for
declared counts 4 and 9. -/
theorem c3_witness :
    (parse_outline_to_chapters "just prose, no heading".toList 2 =
      (List.range 2).map (fun k =>
        ChapterRec.mk (k + 1) ("Chapter " ++ toString (k + 1)).toList
          ("Content for chapter " ++ toString (k + 1)).toList)) ∧
    parse_outline_to_chapters "Chapter 1: A".toList 4 =
      parse_outline_to_chapters "Chapter 1: A".toList 9 :=
  ⟨(c3_zero_header_fallback "just prose, no heading".toList 2 (by decide)).1 (by decide),
   (c3_zero_header_fallback "Chapter 1: A".toList 4 (by decide)).2 (by decide) 9 (by decide)⟩

/-! ## Claim C10: the result is never empty and strictly sorted -/

/-- C10: for every input text and every declared chapter count of at least
one, the parser returns a non-empty list whose chapter numbers are
strictly increasing (hence pairwise distinct), on the header path as well
as on the stub fallback path.  The exception fallback of the original
`try/except` is unreachable: every operation in the body is total on
string inputs. -/
theorem c10_result_invariant (s : List Char) (m : Nat) (hm : 1 ≤ m) :
    parse_outline_to_chapters s m ≠ [] ∧
    ((parse_outline_to_chapters s m).map ChapterRec.chapter_number).Pairwise
      (fun a b => a < b) := by
  rw [parse_eq_ite]
  by_cases hnil : sortByNum (buildRecords (scanHeaders (restrictOutline s)) []) = []
  · rw [if_pos hnil]
    constructor
    · intro h
      rw [List.map_eq_nil_iff, List.range_eq_nil] at h
      omega
    · rw [List.map_map]
      have : (ChapterRec.chapter_number ∘ fun k => stubRec (k + 1)) = fun k => k + 1 := rfl
      rw [this]
      rw [List.pairwise_map]
      exact (List.pairwise_lt_range m).imp (fun h => by omega)
  · rw [if_neg hnil]
    refine ⟨hnil, ?_⟩
    set recs := buildRecords (scanHeaders (restrictOutline s)) [] with hrecs
    have hsorted := sortByNum_sorted recs
    have hnodup : (recs.map ChapterRec.chapter_number).Nodup := (buildRecords_nums _ []).1
    have hperm := sortByNum_perm recs
    have hnodup2 : ((sortByNum recs).map ChapterRec.chapter_number).Nodup :=
      ((hperm.map ChapterRec.chapter_number).nodup_iff).mpr hnodup
    have hne : (sortByNum recs).Pairwise
        (fun a b => a.chapter_number ≠ b.chapter_number) :=
      List.pairwise_map.mp hnodup2
    rw [List.pairwise_map]
    exact List.Pairwise.imp₂ (fun a b h1 h2 => by omega) hsorted hne

/-- Witness for C10: concrete instance with out-of-order headers and
declared count 3. -/
theorem c10_witness :
    parse_outline_to_chapters "Chapter 2: B\nChapter 1: A".toList 3 ≠ [] ∧
    ((parse_outline_to_chapters "Chapter 2: B\nChapter 1: A".toList 3).map
      ChapterRec.chapter_number).Pairwise (fun a b => a < b) :=
  c10_result_invariant "Chapter 2: B\nChapter 1: A".toList 3 (by decide)

/-! ## Well-formed header blocks

To reason about arbitrary texts made of well-formed `Chapter k: Title`
headers, a text is presented as a list of blocks, each rendered as the
literal `Chapter`, one space, a digit group, a colon, one space, the
title, and the raw text `after` that follows the title line (everything
up to the next header, starting with the newline that ends the title
line, or empty at the very end of the text). -/

structure Block where
  digits : List Char
  title : List Char
  after : List Char
deriving DecidableEq

/-- The header line part of a rendered block. -/
def headerPart (b : Block) : List Char :=
  chapterWord ++ (' ' :: (b.digits ++ (':' :: (' ' :: b.title))))

def renderBlock (b : Block) : List Char := headerPart b ++ b.after

def renderBlocks : List Block → List Char
  | [] => []
  | b :: bs => renderBlock b ++ renderBlocks bs

/-- The chapter number carried by a block. -/
def blockNum (b : Block) : Nat := natOfDigits b.digits

/-- What the parser extracts as the `prompt` of a block: its rendered
text, stripped, with the header line removed. -/
def promptOf (b : Block) : List Char :=
  joinNl ((splitNl (pyStrip (renderBlock b))).drop 1)

/-- The record the parser builds for a block. -/
def recordOf (b : Block) : ChapterRec := ⟨blockNum b, pyStrip b.title, promptOf b⟩

/-- A single well-formed block: a nonempty digit group; a nonempty,
pre-stripped, single-line title; an `after` part that is empty or starts
with the newline ending the title line; and no occurrence of the literal
`Chapter` anywhere strictly inside the rendered block (so the only header
the scanner can see in the block starts at its very beginning). -/
def WfBlock (b : Block) : Prop :=
  b.digits ≠ [] ∧ (∀ c ∈ b.digits, isPyDigit c = true) ∧
  b.title ≠ [] ∧ pyStrip b.title = b.title ∧ '\n' ∉ b.title ∧
  (b.after = [] ∨ b.after.head? = some '\n') ∧
  ∀ k, k < (renderBlock b).length → 1 ≤ k →
    chapterWord.isPrefixOf ((renderBlock b).drop k) = false

/-- A well-formed block list: every block is well formed and every block
except possibly the last ends in a newline (so the following header
starts cleanly). -/
def WfBlocks (bs : List Block) : Prop :=
  (∀ b ∈ bs, WfBlock b) ∧ ∀ b ∈ bs.dropLast, b.after.head? = some '\n'

instance instDecidableWfBlock (b : Block) : Decidable (WfBlock b) := by
  unfold WfBlock
  infer_instance

instance instDecidableWfBlocks (bs : List Block) : Decidable (WfBlocks bs) := by
  unfold WfBlocks
  infer_instance

theorem WfBlocks_cons {b : Block} {rest : List Block} (h : WfBlocks (b :: rest)) :
    WfBlocks rest := by
  refine ⟨fun x hx => h.1 x (List.mem_cons_of_mem b hx), ?_⟩
  intro x hx
  cases rest with
  | nil => simp at hx
  | cons c rs =>
    exact h.2 x (by rw [List.dropLast_cons₂]; exact List.mem_cons_of_mem b hx)

theorem WfBlocks_head_after {b : Block} {rest : List Block}
    (h : WfBlocks (b :: rest)) (hne : rest ≠ []) : b.after.head? = some '\n' := by
  cases rest with
  | nil => exact absurd rfl hne
  | cons c rs =>
    exact h.2 b (by rw [List.dropLast_cons₂]; exact List.mem_cons_self _ _)

/-! ### Character class facts -/

theorem isPySpace_not_digit {c : Char} (h : isPySpace c = true) : isPyDigit c = false := by
  unfold isPySpace at h
  simp only [Bool.or_eq_true, decide_eq_true_eq] at h
  rcases h with ((((h | h) | h) | h) | h) | h <;> subst h <;> decide

theorem isPyDigit_not_space {c : Char} (h : isPyDigit c = true) : isPySpace c = false := by
  cases hs : isPySpace c
  · rfl
  · rw [isPySpace_not_digit hs] at h
    exact absurd h (by simp)

/-! ### takeWhile and dropWhile over concatenations -/

theorem takeWhile_append_all {p : Char → Bool} {l t : List Char}
    (h : ∀ a ∈ l, p a = true) : (l ++ t).takeWhile p = l ++ t.takeWhile p := by
  induction l with
  | nil => simp
  | cons c cs ih =>
    have hc : p c = true := h c (List.mem_cons_self _ _)
    simp only [List.cons_append, List.takeWhile_cons, hc, if_true]
    rw [ih (fun a ha => h a (List.mem_cons_of_mem c ha))]

theorem dropWhile_append_all {p : Char → Bool} {l t : List Char}
    (h : ∀ a ∈ l, p a = true) : (l ++ t).dropWhile p = t.dropWhile p := by
  induction l with
  | nil => simp
  | cons c cs ih =>
    have hc : p c = true := h c (List.mem_cons_self _ _)
    simp only [List.cons_append, List.dropWhile_cons, hc, if_true]
    exact ih (fun a ha => h a (List.mem_cons_of_mem c ha))

theorem takeWhile_cons_neg {p : Char → Bool} {c : Char} {l : List Char}
    (h : p c = false) : (c :: l).takeWhile p = [] := by
  simp [List.takeWhile_cons, h]

theorem dropWhile_cons_neg {p : Char → Bool} {c : Char} {l : List Char}
    (h : p c = false) : (c :: l).dropWhile p = c :: l := by
  simp [List.dropWhile_cons, h]

/-! ### Strip fixed points start with a non-blank character -/

theorem pyStrip_length_le (s : List Char) : (pyStrip s).length ≤ s.length := by
  unfold pyStrip
  have h1 := length_dropWhile_le isPySpace s
  have h2 := length_dropWhile_le isPySpace (s.dropWhile isPySpace).reverse
  simp only [List.length_reverse] at h2 ⊢
  omega

theorem pyStrip_fix_head {c : Char} {cs : List Char}
    (hfix : pyStrip (c :: cs) = c :: cs) : isPySpace c = false := by
  cases hc : isPySpace c
  · rfl
  · exfalso
    have he : pyStrip (c :: cs) = pyStrip cs := by
      unfold pyStrip
      rw [List.dropWhile_cons, if_pos hc]
    have hl := pyStrip_length_le cs
    rw [he] at hfix
    have : (pyStrip cs).length = cs.length + 1 := by rw [hfix]; rfl
    omega

/-! ### The matchers on a rendered block -/

theorem matchNumAt_headerPart (b : Block) (x : List Char)
    (hd : b.digits ≠ []) (hdig : ∀ c ∈ b.digits, isPyDigit c = true) :
    matchNumAt (headerPart b ++ x) =
      some (b.digits, ' ' :: (b.title ++ x)) := by
  obtain ⟨d0, ds, hds⟩ : ∃ d0 ds, b.digits = d0 :: ds := by
    cases hdg : b.digits with
    | nil => exact absurd hdg hd
    | cons d0 ds => exact ⟨d0, ds, rfl⟩
  have hd0 : isPyDigit d0 = true := hdig d0 (by rw [hds]; exact List.mem_cons_self _ _)
  have hd0s : isPySpace d0 = false := isPyDigit_not_space hd0
  have hspT : isPySpace ' ' = true := by decide
  have hnorm : headerPart b ++ x =
      chapterWord ++ (' ' :: (b.digits ++ (':' :: (' ' :: (b.title ++ x))))) := by
    unfold headerPart
    simp [List.append_assoc]
  rw [hnorm]
  unfold matchNumAt
  rw [stripPre_append]
  dsimp only
  have h1 : (' ' :: (b.digits ++ (':' :: (' ' :: (b.title ++ x))))).takeWhile isPySpace
      = [' '] := by
    rw [List.takeWhile_cons, hspT, if_pos rfl, hds, List.cons_append,
      takeWhile_cons_neg hd0s]
  have h2 : (' ' :: (b.digits ++ (':' :: (' ' :: (b.title ++ x))))).dropWhile isPySpace
      = b.digits ++ (':' :: (' ' :: (b.title ++ x))) := by
    rw [List.dropWhile_cons, hspT, if_pos rfl, hds, List.cons_append,
      dropWhile_cons_neg hd0s, ← List.cons_append, ← hds]
  have h3 : (b.digits ++ (':' :: (' ' :: (b.title ++ x)))).takeWhile isPyDigit
      = b.digits := by
    rw [takeWhile_append_all hdig,
      takeWhile_cons_neg (p := isPyDigit) (by decide : isPyDigit ':' = false),
      List.append_nil]
  have h4 : (b.digits ++ (':' :: (' ' :: (b.title ++ x)))).dropWhile isPyDigit
      = ':' :: (' ' :: (b.title ++ x)) := by
    rw [dropWhile_append_all hdig,
      dropWhile_cons_neg (p := isPyDigit) (by decide : isPyDigit ':' = false)]
  rw [h1, h2, h3, h4]
  simp [hd]

theorem matchTailRest_clean (title x : List Char)
    (h1 : title ≠ []) (h2 : pyStrip title = title) (h3 : '\n' ∉ title)
    (hx : x = [] ∨ x.head? = some '\n') :
    matchTailRest (title ++ x) = some (title, x) := by
  obtain ⟨c, ts, hts⟩ : ∃ c ts, title = c :: ts := by
    cases ht : title with
    | nil => exact absurd ht h1
    | cons c ts => exact ⟨c, ts, rfl⟩
  have hcs : isPySpace c = false := pyStrip_fix_head (hts ▸ h2)
  have hall : ∀ a ∈ title, (a != '\n') = true := by
    intro a ha
    simp only [bne_iff_ne, ne_eq]
    intro heq
    exact h3 (heq ▸ ha)
  have htake : (title ++ x).takeWhile (fun c => c != '\n') = title := by
    rw [takeWhile_append_all hall]
    rcases hx with hx | hx
    · simp [hx]
    · cases x with
      | nil => simp at hx
      | cons y ys =>
        simp only [List.head?_cons, Option.some.injEq] at hx
        subst hx
        rw [takeWhile_cons_neg (p := fun c => c != '\n')
          (by decide : (('\n' : Char) != '\n') = false)]
        simp
  have hdrop : (title ++ x).dropWhile (fun c => c != '\n') = x := by
    rw [dropWhile_append_all hall]
    rcases hx with hx | hx
    · simp [hx]
    · cases x with
      | nil => simp at hx
      | cons y ys =>
        simp only [List.head?_cons, Option.some.injEq] at hx
        subst hx
        exact dropWhile_cons_neg (p := fun c => c != '\n')
          (by decide : (('\n' : Char) != '\n') = false)
  have hsplit : title ++ x = c :: (ts ++ x) := by rw [hts]; rfl
  rw [hsplit]
  unfold matchTailRest
  rw [hcs]
  simp only [Bool.false_eq_true, if_false]
  unfold takeLine
  rw [← hsplit, htake, hdrop]
  simp [h1]

theorem matchHeaderAt_render (b : Block) (t : List Char)
    (hWf : WfBlock b) (hlast : b.after = [] → t = []) :
    matchHeaderAt (renderBlock b ++ t) = some (b.digits, b.title, b.after ++ t) := by
  obtain ⟨hd, hdig, ht1, ht2, ht3, hafter, _⟩ := hWf
  unfold renderBlock
  rw [List.append_assoc]
  unfold matchHeaderAt
  rw [matchNumAt_headerPart b (b.after ++ t) hd hdig]
  have hx : b.after ++ t = [] ∨ (b.after ++ t).head? = some '\n' := by
    rcases hafter with ha | ha
    · left; rw [ha, hlast ha]; rfl
    · right
      cases haf : b.after with
      | nil => rw [haf] at ha; simp at ha
      | cons y ys =>
        rw [haf] at ha
        simp only [List.head?_cons, Option.some.injEq] at ha
        subst ha
        rfl
  have hmt : matchTail (' ' :: (b.title ++ (b.after ++ t))) =
      some (b.title, b.after ++ t) :=
    matchTailRest_clean b.title (b.after ++ t) ht1 ht2 ht3 hx
  dsimp only
  rw [hmt]

/-! ### No header starts strictly inside a block -/

theorem chapterWord_not_prefix_lift {x T : List Char} {k : Nat}
    (hk : k < x.length)
    (hx : ¬ chapterWord <+: x.drop k)
    (hT : T = [] ∨ T.head? = some 'C') :
    ¬ chapterWord <+: (x ++ T).drop k := by
  intro h
  rw [List.drop_append_eq_append_drop, Nat.sub_eq_zero_of_le (Nat.le_of_lt hk),
    List.drop_zero] at h
  rcases hT with hT | hT
  · rw [hT, List.append_nil] at h
    exact hx h
  by_cases h7 : chapterWord.length ≤ (x.drop k).length
  · apply hx
    rw [List.prefix_iff_eq_take] at h ⊢
    rw [List.take_append_eq_append_take, Nat.sub_eq_zero_of_le h7, List.take_zero,
      List.append_nil] at h
    exact h
  · obtain ⟨T', hT'⟩ : ∃ T', T = 'C' :: T' := by
      cases hTc : T with
      | nil => rw [hTc] at hT; simp at hT
      | cons y ys =>
        rw [hTc] at hT
        simp only [List.head?_cons, Option.some.injEq] at hT
        subst hT
        exact ⟨ys, rfl⟩
    obtain ⟨z, hz⟩ := h
    have hd1 : 1 ≤ (x.drop k).length := by
      rw [List.length_drop]
      omega
    have hd7 : (x.drop k).length < chapterWord.length := by omega
    have hdropz := congrArg (List.drop (x.drop k).length) hz
    have hLHS : (chapterWord ++ z).drop (x.drop k).length =
        chapterWord.drop (x.drop k).length ++ z := by
      rw [List.drop_append_eq_append_drop,
        Nat.sub_eq_zero_of_le (Nat.le_of_lt hd7), List.drop_zero]
    have hRHS : (x.drop k ++ T).drop (x.drop k).length = T := by
      rw [List.drop_append_eq_append_drop, List.drop_length,
        Nat.sub_self, List.drop_zero, List.nil_append]
    rw [hLHS, hRHS, hT'] at hdropz
    have hhead : (chapterWord.drop (x.drop k).length).head? = some 'C' := by
      cases hcw : chapterWord.drop (x.drop k).length with
      | nil =>
        have hlen := congrArg List.length hcw
        simp only [List.length_drop, List.length_nil] at hlen
        have hd7' := hd7
        simp only [List.length_drop] at hd7'
        omega
      | cons a as =>
        rw [hcw] at hdropz
        simp only [List.cons_append, List.cons.injEq] at hdropz
        simp [hdropz.1]
    have hno : ∀ d, d < 7 → 1 ≤ d → (chapterWord.drop d).head? ≠ some 'C' := by decide
    have h7' : chapterWord.length = 7 := by decide
    exact hno (x.drop k).length (by omega) hd1 hhead

theorem scanHeaders_skip {u t : List Char}
    (h : ∀ k, k < u.length → ¬ chapterWord <+: (u ++ t).drop k) :
    scanHeaders (u ++ t) = scanHeaders t := by
  induction u with
  | nil => simp
  | cons c cs ih =>
    have h0 : ¬ chapterWord <+: ((c :: cs) ++ t) := by
      have := h 0 (by simp)
      simpa using this
    have hm : matchHeaderAt ((c :: cs) ++ t) = none := by
      cases hmm : matchHeaderAt ((c :: cs) ++ t) with
      | none => rfl
      | some v =>
        obtain ⟨d, tt, r⟩ := v
        exact absurd (matchHeaderAt_chapterWord hmm) h0
    rw [List.cons_append] at hm ⊢
    rw [scanHeaders_cons_none hm]
    apply ih
    intro k hk
    have := h (k + 1) (by simp only [List.length_cons]; omega)
    simpa using this

/-- The interior clause of `WfBlock`, converted to the prefix relation. -/
theorem WfBlock_no_inner {b : Block} (hWf : WfBlock b) :
    ∀ k, k < (renderBlock b).length → 1 ≤ k →
      ¬ chapterWord <+: (renderBlock b).drop k := by
  intro k h1 h2 hpre
  have hb := hWf.2.2.2.2.2.2 k h1 h2
  have ht : chapterWord.isPrefixOf ((renderBlock b).drop k) = true :=
    List.isPrefixOf_iff_prefix.mpr hpre
  rw [hb] at ht
  exact absurd ht (by simp)

/-! ### Body extraction on a rendered block -/

theorem findNum_eq_none {u : List Char}
    (h : ∀ k, k < u.length → ¬ chapterWord <+: u.drop k) : findNum u = none := by
  induction u with
  | nil => rfl
  | cons c cs ih =>
    unfold findNum
    have h0 : matchNumAt (c :: cs) = none := by
      cases hmm : matchNumAt (c :: cs) with
      | none => rfl
      | some v =>
        obtain ⟨d, r⟩ := v
        exact absurd (matchNumAt_chapterWord hmm)
          (by simpa using h 0 (by simp))
    have hrest : findNum cs = none := ih (fun k hk => by
      have := h (k + 1) (by simp only [List.length_cons]; omega)
      simpa using this)
    rw [h0, hrest]
    simp

theorem findNum_append_some {u t : List Char}
    (hu : ∀ k, k < u.length → ¬ chapterWord <+: (u ++ t).drop k)
    (ht : (matchNumAt t).isSome = true) :
    findNum (u ++ t) = some u.length := by
  induction u with
  | nil =>
    rw [List.nil_append]
    cases t with
    | nil =>
      have h0 : matchNumAt ([] : List Char) = none := rfl
      rw [h0] at ht
      simp at ht
    | cons c cs =>
      unfold findNum
      rw [if_pos ht]
      rfl
  | cons c cs ih =>
    rw [List.cons_append]
    unfold findNum
    have h0 : matchNumAt (c :: (cs ++ t)) = none := by
      cases hmm : matchNumAt (c :: (cs ++ t)) with
      | none => rfl
      | some v =>
        obtain ⟨d, r⟩ := v
        have hcw := matchNumAt_chapterWord hmm
        have h00 := hu 0 (by simp)
        rw [List.drop_zero, List.cons_append] at h00
        exact absurd hcw h00
    rw [h0]
    have hrest : findNum (cs ++ t) = some cs.length := ih (fun k hk => by
      have := hu (k + 1) (by simp only [List.length_cons]; omega)
      simpa using this)
    rw [hrest]
    simp

theorem renderBlock_headC (b : Block) : (renderBlock b).head? = some 'C' := by
  unfold renderBlock headerPart chapterWord
  rfl

theorem renderBlock_cons (b : Block) :
    renderBlock b = 'C' :: (renderBlock b).tail := by
  cases hr : renderBlock b with
  | nil =>
    have h := renderBlock_headC b
    rw [hr] at h
    simp at h
  | cons a as =>
    have h := renderBlock_headC b
    rw [hr] at h
    simp only [List.head?_cons, Option.some.injEq] at h
    rw [h]
    rfl

theorem renderBlocks_head (bs : List Block) :
    renderBlocks bs = [] ∨ (renderBlocks bs).head? = some 'C' := by
  cases bs with
  | nil => exact Or.inl rfl
  | cons b rest =>
    right
    show (renderBlock b ++ renderBlocks rest).head? = some 'C'
    rw [renderBlock_cons b]
    rfl

theorem headerPart_pos (b : Block) : 1 ≤ (headerPart b).length := by
  unfold headerPart chapterWord
  simp

/-- No header can start strictly inside the `after` part of a rendered
block, even when more rendered text follows. -/
theorem after_no_chapter {b : Block} (hWf : WfBlock b) (T : List Char)
    (hT : T = [] ∨ T.head? = some 'C') :
    ∀ k, k < b.after.length → ¬ chapterWord <+: (b.after ++ T).drop k := by
  intro k hk
  apply chapterWord_not_prefix_lift hk _ hT
  have hbound : (headerPart b).length + k < (renderBlock b).length := by
    unfold renderBlock
    rw [List.length_append]
    omega
  have hinner := WfBlock_no_inner hWf ((headerPart b).length + k) hbound
    (by have := headerPart_pos b; omega)
  have heq : (renderBlock b).drop ((headerPart b).length + k) = b.after.drop k := by
    unfold renderBlock
    rw [List.drop_append_eq_append_drop,
      List.drop_eq_nil_of_le (by omega), List.nil_append]
    congr 1
    omega
  rw [heq] at hinner
  exact hinner

/-- No header can start in the tail of a rendered block (one character
past its start), even when more rendered text follows. -/
theorem tail_no_chapter {b : Block} (hWf : WfBlock b) (T : List Char)
    (hT : T = [] ∨ T.head? = some 'C') :
    ∀ k, k < (renderBlock b).tail.length →
      ¬ chapterWord <+: ((renderBlock b).tail ++ T).drop k := by
  intro k hk
  apply chapterWord_not_prefix_lift hk _ hT
  have htd : (renderBlock b).tail = (renderBlock b).drop 1 := by
    rw [renderBlock_cons b]
    rfl
  have hfull : (renderBlock b).length = (renderBlock b).tail.length + 1 := by
    conv_lhs => rw [renderBlock_cons b]
    rw [List.length_cons]
  have hinner := WfBlock_no_inner hWf (1 + k) (by omega) (by omega)
  have heq : (renderBlock b).tail.drop k = (renderBlock b).drop (1 + k) := by
    rw [htd, List.drop_drop]
  rw [heq]
  exact hinner

/-- The `prompt` the parser computes for the first block of a rendered
block list is exactly `promptOf` of that block. -/
theorem chapterBody_render {b : Block} {rest : List Block}
    (h : WfBlocks (b :: rest)) :
    chapterBody (renderBlocks (b :: rest)) = promptOf b := by
  have hWf : WfBlock b := h.1 b (List.mem_cons_self _ _)
  have hT : renderBlocks rest = [] ∨ (renderBlocks rest).head? = some 'C' :=
    renderBlocks_head rest
  show chapterBody (renderBlock b ++ renderBlocks rest) = promptOf b
  unfold chapterBody
  have htail : (renderBlock b ++ renderBlocks rest).tail
      = (renderBlock b).tail ++ renderBlocks rest := by
    rw [renderBlock_cons b]
    rfl
  rw [htail]
  cases hrest : rest with
  | nil =>
    have hfn : findNum ((renderBlock b).tail ++ renderBlocks ([] : List Block)) = none := by
      show findNum ((renderBlock b).tail ++ []) = none
      rw [List.append_nil]
      apply findNum_eq_none
      intro k hk
      have hnc := tail_no_chapter hWf [] (Or.inl rfl) k hk
      rwa [List.append_nil] at hnc
    rw [hfn]
    show joinNl ((splitNl (pyStrip (renderBlock b ++ renderBlocks ([] : List Block)))).drop 1)
      = promptOf b
    show joinNl ((splitNl (pyStrip (renderBlock b ++ []))).drop 1) = promptOf b
    rw [List.append_nil]
    rfl
  | cons b' rest' =>
    have hWf' : WfBlock b' := by
      apply (WfBlocks_cons h).1
      rw [hrest]
      exact List.mem_cons_self _ _
    have hsome : (matchNumAt (renderBlocks (b' :: rest'))).isSome = true := by
      show (matchNumAt (renderBlock b' ++ renderBlocks rest')).isSome = true
      unfold renderBlock
      rw [List.append_assoc,
        matchNumAt_headerPart b' (b'.after ++ renderBlocks rest') hWf'.1 hWf'.2.1]
      rfl
    have hfn : findNum ((renderBlock b).tail ++ renderBlocks (b' :: rest'))
        = some (renderBlock b).tail.length := by
      apply findNum_append_some
      · intro k hk
        exact tail_no_chapter hWf (renderBlocks (b' :: rest'))
          (by rw [← hrest]; exact hT) k hk
      · exact hsome
    rw [hfn]
    have htake : (renderBlock b ++ renderBlocks (b' :: rest')).take
        (1 + (renderBlock b).tail.length) = renderBlock b := by
      apply List.take_left'
      conv_lhs => rw [renderBlock_cons b]
      rw [List.length_cons]
      omega
    show joinNl ((splitNl (pyStrip ((renderBlock b ++ renderBlocks (b' :: rest')).take
      (1 + (renderBlock b).tail.length)))).drop 1) = promptOf b
    rw [htake]
    rfl

/-! ### The scan on a rendered block list -/

/-- The match list the scan produces on a rendered block list: one match
per block, in order, carrying the block number, the raw title, and the
rendered remainder from that block on. -/
def scanOfBlocks : List Block → List (Nat × List Char × List Char)
  | [] => []
  | b :: bs => (natOfDigits b.digits, b.title, renderBlocks (b :: bs)) :: scanOfBlocks bs

theorem scanHeaders_renderBlocks {bs : List Block} (h : WfBlocks bs) :
    scanHeaders (renderBlocks bs) = scanOfBlocks bs := by
  induction bs with
  | nil => rfl
  | cons b rest ih =>
    have hWf : WfBlock b := h.1 b (List.mem_cons_self _ _)
    have hlast : b.after = [] → renderBlocks rest = [] := by
      intro ha
      cases rest with
      | nil => rfl
      | cons c rs =>
        have hh := WfBlocks_head_after h (by simp)
        rw [ha] at hh
        simp at hh
    have hmatch := matchHeaderAt_render b (renderBlocks rest) hWf hlast
    have hrb := renderBlock_cons b
    have hmatch' : matchHeaderAt ('C' :: ((renderBlock b).tail ++ renderBlocks rest))
        = some (b.digits, b.title, b.after ++ renderBlocks rest) := by
      rw [← List.cons_append, ← hrb]
      exact hmatch
    have hT : renderBlocks rest = [] ∨ (renderBlocks rest).head? = some 'C' :=
      renderBlocks_head rest
    have hskip : scanHeaders (b.after ++ renderBlocks rest)
        = scanHeaders (renderBlocks rest) :=
      scanHeaders_skip (fun k hk => after_no_chapter hWf (renderBlocks rest) hT k hk)
    have hstep : renderBlocks (b :: rest)
        = 'C' :: ((renderBlock b).tail ++ renderBlocks rest) := by
      show renderBlock b ++ renderBlocks rest = _
      rw [hrb]
      rfl
    rw [hstep, scanHeaders_cons_some hmatch', hskip, ih (WfBlocks_cons h)]
    rw [← hstep]
    rfl

/-! ### Deduplication at the block level -/

/-- Keep only the first block with each chapter number (numbers already in
`seen` are discarded entirely). -/
def dedupBlocks : List Block → List Nat → List Block
  | [], _ => []
  | b :: bs, seen =>
    if blockNum b ∈ seen then dedupBlocks bs seen
    else b :: dedupBlocks bs (blockNum b :: seen)

theorem buildRecords_scanOfBlocks {bs : List Block} (h : WfBlocks bs) :
    ∀ seen, buildRecords (scanOfBlocks bs) seen = (dedupBlocks bs seen).map recordOf := by
  induction bs with
  | nil => intro seen; rfl
  | cons b rest ih =>
    intro seen
    show buildRecords ((natOfDigits b.digits, b.title, renderBlocks (b :: rest))
      :: scanOfBlocks rest) seen = _
    unfold buildRecords dedupBlocks
    by_cases hmem : natOfDigits b.digits ∈ seen
    · rw [if_pos hmem, if_pos (show blockNum b ∈ seen from hmem)]
      exact ih (WfBlocks_cons h) seen
    · rw [if_neg hmem, if_neg (show blockNum b ∉ seen from hmem)]
      rw [List.map_cons]
      have hrec : (⟨natOfDigits b.digits, pyStrip b.title,
          chapterBody (renderBlocks (b :: rest))⟩ : ChapterRec) = recordOf b := by
        unfold recordOf blockNum
        rw [chapterBody_render h]
      rw [hrec]
      have hseen : (natOfDigits b.digits :: seen) = (blockNum b :: seen) := rfl
      rw [hseen, ih (WfBlocks_cons h) (blockNum b :: seen)]

/-- The parser on a rendered nonempty block list: scan all blocks, keep
the first block of each number, build their records, and sort. -/
theorem parseCore_renderBlocks {bs : List Block} (h : WfBlocks bs) (hne : bs ≠ [])
    (m : Nat) :
    parseCore (renderBlocks bs) m = sortByNum ((dedupBlocks bs []).map recordOf) := by
  unfold parseCore
  rw [scanHeaders_renderBlocks h, buildRecords_scanOfBlocks h []]
  have hd : dedupBlocks bs [] ≠ [] := by
    cases bs with
    | nil => exact absurd rfl hne
    | cons b rest =>
      unfold dedupBlocks
      rw [if_neg (by simp)]
      simp
  have hnn : sortByNum ((dedupBlocks bs []).map recordOf) ≠ [] := by
    intro hnil
    have hlen := sortByNum_length ((dedupBlocks bs []).map recordOf)
    rw [hnil] at hlen
    simp only [List.length_nil, List.length_map] at hlen
    exact hd (List.length_eq_zero.mp hlen.symm)
  rw [if_neg hnn]

theorem dedupBlocks_all {bs : List Block} :
    ∀ seen, (∀ n ∈ seen, n ∉ bs.map blockNum) → (bs.map blockNum).Nodup →
    dedupBlocks bs seen = bs := by
  induction bs with
  | nil => intro seen _ _; rfl
  | cons b rest ih =>
    intro seen hdisj hnd
    simp only [List.map_cons, List.nodup_cons] at hnd
    unfold dedupBlocks
    by_cases hmem : blockNum b ∈ seen
    · exact absurd (List.mem_cons_self _ _) (hdisj _ hmem)
    · rw [if_neg hmem]
      congr 1
      apply ih (blockNum b :: seen) _ hnd.2
      intro n hn
      rcases List.mem_cons.mp hn with hn | hn
      · subst hn; exact hnd.1
      · intro hmem2
        exact hdisj n hn (List.mem_cons_of_mem _ hmem2)

theorem dedupBlocks_subset {bs : List Block} :
    ∀ seen b, b ∈ dedupBlocks bs seen → b ∈ bs := by
  induction bs with
  | nil => intro seen b hb; simp [dedupBlocks] at hb
  | cons x rest ih =>
    intro seen b hb
    unfold dedupBlocks at hb
    split at hb
    · exact List.mem_cons_of_mem x (ih seen b hb)
    · rcases List.mem_cons.mp hb with hb | hb
      · subst hb; exact List.mem_cons_self _ _
      · exact List.mem_cons_of_mem x (ih _ b hb)

theorem dedupBlocks_nums {bs : List Block} :
    ∀ seen, ((dedupBlocks bs seen).map blockNum).Nodup ∧
      ∀ b ∈ dedupBlocks bs seen, blockNum b ∉ seen := by
  induction bs with
  | nil => intro seen; simp [dedupBlocks]
  | cons b rest ih =>
    intro seen
    unfold dedupBlocks
    by_cases hmem : blockNum b ∈ seen
    · rw [if_pos hmem]
      exact ih seen
    · rw [if_neg hmem]
      constructor
      · simp only [List.map_cons, List.nodup_cons]
        refine ⟨?_, (ih (blockNum b :: seen)).1⟩
        intro hn
        rw [List.mem_map] at hn
        obtain ⟨x, hx, hxn⟩ := hn
        have hni := (ih (blockNum b :: seen)).2 x hx
        rw [hxn] at hni
        exact hni (List.mem_cons_self _ _)
      · intro x hx
        rcases List.mem_cons.mp hx with hx | hx
        · subst hx; exact hmem
        · have hni := (ih (blockNum b :: seen)).2 x hx
          intro hseen
          exact hni (List.mem_cons_of_mem _ hseen)

/-- Position read-off used in the duplicate-header claim. -/
def blockAt (bs : List Block) (i : Nat) : Block := bs.getD i ⟨[], [], []⟩

theorem blockAt_mem {bs : List Block} {i : Nat} (h : i < bs.length) :
    blockAt bs i ∈ bs := by
  induction bs generalizing i with
  | nil => simp at h
  | cons b rest ih =>
    cases i with
    | zero => exact List.mem_cons_self _ _
    | succ k =>
      have hs : blockAt (b :: rest) (k + 1) = blockAt rest k := rfl
      rw [hs]
      exact List.mem_cons_of_mem b (ih (by simp only [List.length_cons] at h; omega))

theorem mem_blockAt {bs : List Block} {b : Block} (h : b ∈ bs) :
    ∃ i, i < bs.length ∧ blockAt bs i = b := by
  induction bs with
  | nil => simp at h
  | cons x rest ih =>
    rcases List.mem_cons.mp h with h | h
    · exact ⟨0, by simp, h.symm⟩
    · obtain ⟨i, hi, hb⟩ := ih h
      exact ⟨i + 1, by simp only [List.length_cons]; omega, hb⟩

theorem dedupBlocks_keeps_first {bs : List Block} :
    ∀ seen i, i < bs.length →
    (∀ k, k < i → blockNum (blockAt bs k) ≠ blockNum (blockAt bs i)) →
    blockNum (blockAt bs i) ∉ seen →
    blockAt bs i ∈ dedupBlocks bs seen := by
  induction bs with
  | nil => intro seen i hi; simp at hi
  | cons b rest ih =>
    intro seen i hi hfirst hnotin
    unfold dedupBlocks
    cases i with
    | zero =>
      have hb : blockAt (b :: rest) 0 = b := rfl
      rw [hb] at hnotin ⊢
      rw [if_neg hnotin]
      exact List.mem_cons_self _ _
    | succ k =>
      have hstep : blockAt (b :: rest) (k + 1) = blockAt rest k := rfl
      rw [hstep] at hnotin ⊢
      have hk : k < rest.length := by simp only [List.length_cons] at hi; omega
      by_cases hmem : blockNum b ∈ seen
      · rw [if_pos hmem]
        apply ih seen k hk _ hnotin
        intro k2 hk2
        have hf := hfirst (k2 + 1) (by omega)
        have h1 : blockAt (b :: rest) (k2 + 1) = blockAt rest k2 := rfl
        rw [h1, hstep] at hf
        exact hf
      · rw [if_neg hmem]
        apply List.mem_cons_of_mem
        apply ih (blockNum b :: seen) k hk
        · intro k2 hk2
          have hf := hfirst (k2 + 1) (by omega)
          have h1 : blockAt (b :: rest) (k2 + 1) = blockAt rest k2 := rfl
          rw [h1, hstep] at hf
          exact hf
        · intro hin
          rcases List.mem_cons.mp hin with hin | hin
          · have hf := hfirst 0 (by omega)
            have hb0 : blockAt (b :: rest) 0 = b := rfl
            rw [hb0, hstep] at hf
            exact hf hin.symm
          · exact hnotin hin

theorem countP_num_eq_one {l : List ChapterRec} {n : Nat}
    (hnd : (l.map ChapterRec.chapter_number).Nodup)
    (hmem : ∃ r ∈ l, r.chapter_number = n) :
    l.countP (fun r => r.chapter_number == n) = 1 := by
  induction l with
  | nil => simp at hmem
  | cons r rs ih =>
    simp only [List.map_cons, List.nodup_cons] at hnd
    obtain ⟨r0, hr0, hr0n⟩ := hmem
    rw [List.countP_cons]
    by_cases hr : r.chapter_number = n
    · have hzero : rs.countP (fun x => x.chapter_number == n) = 0 := by
        rw [List.countP_eq_zero]
        intro x hx hxn
        simp only [beq_iff_eq] at hxn
        apply hnd.1
        rw [List.mem_map]
        exact ⟨x, hx, by rw [hxn, ← hr]⟩
      rw [hzero]
      simp [hr]
    · have hr0rs : r0 ∈ rs := by
        rcases List.mem_cons.mp hr0 with h0 | h0
        · subst h0; exact absurd hr0n hr
        · exact h0
      rw [ih hnd.2 ⟨r0, hr0rs, hr0n⟩]
      simp [hr]

/-! ## Claim C1: unique well-formed headers parse to a sorted record list -/

/-- C1: when (after the marker restriction) the raw text is a
concatenation of well-formed header blocks with pairwise distinct chapter
numbers, in any order, the parser returns exactly one record per block,
the chapter numbers of the result are strictly ascending, and every block
appears in the result with its original (stripped) title and its body. -/
theorem c1_sorted_unique_headers (s : List Char) (m : Nat) (bs : List Block)
    (hres : restrictOutline s = renderBlocks bs) (hWf : WfBlocks bs)
    (hne : bs ≠ []) (hnd : (bs.map blockNum).Nodup) :
    (parse_outline_to_chapters s m).length = bs.length ∧
    ((parse_outline_to_chapters s m).map ChapterRec.chapter_number).Pairwise
      (fun a b => a < b) ∧
    ∀ b ∈ bs, recordOf b ∈ parse_outline_to_chapters s m := by
  have hp : parse_outline_to_chapters s m = sortByNum (bs.map recordOf) := by
    unfold parse_outline_to_chapters
    rw [hres, parseCore_renderBlocks hWf hne m, dedupBlocks_all [] (by simp) hnd]
  refine ⟨?_, ?_, ?_⟩
  · rw [hp, sortByNum_length, List.length_map]
  · rw [hp]
    have hsorted := sortByNum_sorted (bs.map recordOf)
    have hnodup : ((bs.map recordOf).map ChapterRec.chapter_number).Nodup := by
      rw [List.map_map]
      exact hnd
    have hperm := sortByNum_perm (bs.map recordOf)
    have hnodup2 := ((hperm.map ChapterRec.chapter_number).nodup_iff).mpr hnodup
    have hneq := List.pairwise_map.mp hnodup2
    rw [List.pairwise_map]
    exact List.Pairwise.imp₂ (fun a b h1 h2 => by omega) hsorted hneq
  · intro b hb
    rw [hp]
    exact (sortByNum_perm _).mem_iff.mpr (List.mem_map_of_mem recordOf hb)

/-- The end-to-end outline text of the specification, with chapters
appearing in the order 1, 3, 2. -/
def c1Text : List Char :=
  ("OUTLINE:\n\nChapter 1: The Beginning\n- Key Events:\n  * A\n" ++
   "Chapter 3: Skip\nChapter 2: Middle\n\nEND OF OUTLINE").toList

def c1Blocks : List Block :=
  [⟨"1".toList, "The Beginning".toList, "\n- Key Events:\n  * A\n".toList⟩,
   ⟨"3".toList, "Skip".toList, "\n".toList⟩,
   ⟨"2".toList, "Middle".toList, []⟩]

/-- Witness for C1 at the end-to-end scenario of the specification:
headers 1, 3, 2 between outline markers, declared count 3. -/
theorem c1_witness :
    (parse_outline_to_chapters c1Text 3).length = c1Blocks.length ∧
    ((parse_outline_to_chapters c1Text 3).map ChapterRec.chapter_number).Pairwise
      (fun a b => a < b) ∧
    ∀ b ∈ c1Blocks, recordOf b ∈ parse_outline_to_chapters c1Text 3 :=
  c1_sorted_unique_headers c1Text 3 c1Blocks (by decide) (by decide) (by decide)
    (by decide)

/-! ## Claim C2: duplicate chapter numbers, first occurrence wins -/

/-- C2: when the rendered text contains two headers with the same chapter
number (positions `i < j` in the block list, `i` being the first
occurrence of that number), the parse result contains exactly one record
for that number, that record carries the title and body of the first
occurrence, and no record carries the title and body of the later one
(assuming, as the claim implicitly does, that no other block shares both
title and body with the duplicate). -/
theorem c2_duplicate_first_wins (s : List Char) (m : Nat) (bs : List Block)
    (i j : Nat) (hij : i < j) (hj : j < bs.length)
    (hres : restrictOutline s = renderBlocks bs) (hWf : WfBlocks bs)
    (hfirst : ∀ k, k < i → blockNum (blockAt bs k) ≠ blockNum (blockAt bs i))
    (hdup : blockNum (blockAt bs j) = blockNum (blockAt bs i))
    (hdata : ∀ k, k < bs.length → k ≠ j →
      ¬(pyStrip (blockAt bs k).title = pyStrip (blockAt bs j).title ∧
        promptOf (blockAt bs k) = promptOf (blockAt bs j))) :
    (parse_outline_to_chapters s m).countP
      (fun r => r.chapter_number == blockNum (blockAt bs i)) = 1 ∧
    recordOf (blockAt bs i) ∈ parse_outline_to_chapters s m ∧
    ∀ r ∈ parse_outline_to_chapters s m,
      ¬(r.title = pyStrip (blockAt bs j).title ∧
        r.prompt = promptOf (blockAt bs j)) := by
  have hi : i < bs.length := by omega
  have hbene : bs ≠ [] := by
    intro hnil
    rw [hnil] at hj
    simp at hj
  have hp : parse_outline_to_chapters s m
      = sortByNum ((dedupBlocks bs []).map recordOf) := by
    unfold parse_outline_to_chapters
    rw [hres, parseCore_renderBlocks hWf hbene m]
  have hperm := sortByNum_perm ((dedupBlocks bs []).map recordOf)
  have hkeep : blockAt bs i ∈ dedupBlocks bs [] :=
    dedupBlocks_keeps_first [] i hi hfirst (by simp)
  have hmemmap : recordOf (blockAt bs i) ∈ (dedupBlocks bs []).map recordOf :=
    List.mem_map_of_mem recordOf hkeep
  have hndrec : (((dedupBlocks bs []).map recordOf).map
      ChapterRec.chapter_number).Nodup := by
    rw [List.map_map]
    exact (dedupBlocks_nums []).1
  refine ⟨?_, ?_, ?_⟩
  · rw [hp, hperm.countP_eq]
    apply countP_num_eq_one hndrec
    exact ⟨recordOf (blockAt bs i), hmemmap, rfl⟩
  · rw [hp]
    exact hperm.mem_iff.mpr hmemmap
  · intro r hr
    rw [hp] at hr
    have hr2 : r ∈ (dedupBlocks bs []).map recordOf := hperm.mem_iff.mp hr
    rw [List.mem_map] at hr2
    obtain ⟨b, hbdedup, hbrec⟩ := hr2
    have hbbs : b ∈ bs := dedupBlocks_subset [] b hbdedup
    obtain ⟨k, hk, hbk⟩ := mem_blockAt hbbs
    have hrt : r.title = pyStrip b.title := by rw [← hbrec]; rfl
    have hrp : r.prompt = promptOf b := by rw [← hbrec]; rfl
    by_cases hkj : k = j
    · exfalso
      subst hkj
      have hbn : (recordOf b).chapter_number
          = (recordOf (blockAt bs i)).chapter_number := by
        show blockNum b = blockNum (blockAt bs i)
        rw [← hbk]
        exact hdup
      have hrec_eq : recordOf b = recordOf (blockAt bs i) :=
        List.inj_on_of_nodup_map hndrec
          (List.mem_map_of_mem recordOf hbdedup) hmemmap hbn
      have h1 : pyStrip b.title = pyStrip (blockAt bs i).title := by
        have hcg := congrArg ChapterRec.title hrec_eq
        simpa [recordOf] using hcg
      have h2 : promptOf b = promptOf (blockAt bs i) := by
        have hcg := congrArg ChapterRec.prompt hrec_eq
        simpa [recordOf] using hcg
      apply hdata i hi (by omega)
      exact ⟨by rw [hbk]; exact h1.symm, by rw [hbk]; exact h2.symm⟩
    · intro hcon
      obtain ⟨hti, hpr⟩ := hcon
      apply hdata k hk hkj
      refine ⟨?_, ?_⟩
      · rw [hbk, ← hrt]
        exact hti
      · rw [hbk, ← hrp]
        exact hpr

/-- A concrete outline text in which chapter number 1 appears twice. -/
def c2Text : List Char :=
  "Chapter 1: First\nbody one\nChapter 2: Second\nx\nChapter 1: Dup\ny".toList

def c2Blocks : List Block :=
  [⟨"1".toList, "First".toList, "\nbody one\n".toList⟩,
   ⟨"2".toList, "Second".toList, "\nx\n".toList⟩,
   ⟨"1".toList, "Dup".toList, "\ny".toList⟩]

/-- Witness for C2: the duplicated number 1 (first header wins, the later
`Dup` header contributes nothing). -/
theorem c2_witness :
    (parse_outline_to_chapters c2Text 9).countP
      (fun r => r.chapter_number == blockNum (blockAt c2Blocks 0)) = 1 ∧
    recordOf (blockAt c2Blocks 0) ∈ parse_outline_to_chapters c2Text 9 ∧
    ∀ r ∈ parse_outline_to_chapters c2Text 9,
      ¬(r.title = pyStrip (blockAt c2Blocks 2).title ∧
        r.prompt = promptOf (blockAt c2Blocks 2)) :=
  c2_duplicate_first_wins c2Text 9 c2Blocks 0 2 (by decide) (by decide) (by decide)
    (by decide) (by decide) (by decide) (by decide)

/-! ## Stage response extraction (`generate_content`, agents.py) -/

theorem findSub_le_length {pat s : List Char} {i : Nat} (hpat : pat ≠ [])
    (h : findSub pat s = some i) : i < s.length := by
  induction s generalizing i with
  | nil =>
    simp only [findSub] at h
    split at h
    · rename_i hp; exact absurd hp hpat
    · exact absurd h (by simp)
  | cons c cs ih =>
    simp only [findSub] at h
    split at h
    · simp only [Option.some.injEq] at h
      subst h
      simp
    · cases hf : findSub pat cs with
      | none => rw [hf] at h; exact absurd h (by simp)
      | some i0 =>
        rw [hf] at h
        simp only [Option.map_some', Option.some.injEq] at h
        subst h
        have := ih hf
        simp only [List.length_cons]
        omega

def sceneFinalMarker : List Char := "SCENE FINAL:".toList

/-- Python `str.split(pat)` for a nonempty separator, written with fuel so
that the kernel can evaluate it (the input length is always enough fuel,
since every separator occurrence consumes at least one character). -/
def splitGo (pat : List Char) : Nat → List Char → List (List Char)
  | 0, s => [s]
  | n + 1, s =>
    match findSub pat s with
    | none => [s]
    | some i => s.take i :: splitGo pat n (s.drop (i + pat.length))

def splitOnSub (pat s : List Char) : List (List Char) := splitGo pat s.length s

theorem splitGo_fuel {pat : List Char} (hpat : pat ≠ []) :
    ∀ n m s, s.length ≤ n → s.length ≤ m → splitGo pat n s = splitGo pat m s := by
  intro n
  induction n with
  | zero =>
    intro m s hn _
    have hs : s = [] := by
      cases s with
      | nil => rfl
      | cons c cs => simp at hn
    subst hs
    cases m with
    | zero => rfl
    | succ m =>
      show [[]] = splitGo pat (m + 1) []
      have hf : findSub pat [] = none := by
        unfold findSub
        rw [if_neg hpat]
      simp only [splitGo, hf]
  | succ n ih =>
    intro m s hn hm
    cases s with
    | nil =>
      have hf : findSub pat [] = none := by
        unfold findSub
        rw [if_neg hpat]
      cases m with
      | zero => simp only [splitGo, hf]
      | succ m => simp only [splitGo, hf]
    | cons c cs =>
      cases m with
      | zero => simp at hm
      | succ m =>
        show splitGo pat (n + 1) (c :: cs) = splitGo pat (m + 1) (c :: cs)
        simp only [splitGo]
        cases hf : findSub pat (c :: cs) with
        | none => rfl
        | some i =>
          dsimp only
          congr 1
          have hlt : i < (c :: cs).length := findSub_le_length hpat hf
          have hplen : 1 ≤ pat.length := by
            cases pat with
            | nil => exact absurd rfl hpat
            | cons p ps => simp
          have hdrop : ((c :: cs).drop (i + pat.length)).length
              = (c :: cs).length - (i + pat.length) := List.length_drop _ _
          apply ih
          · rw [hdrop]
            simp only [List.length_cons] at hlt hn ⊢
            omega
          · rw [hdrop]
            simp only [List.length_cons] at hlt hm ⊢
            omega

theorem splitOnSub_none {pat s : List Char} (_hpat : pat ≠ [])
    (h : findSub pat s = none) : splitOnSub pat s = [s] := by
  unfold splitOnSub
  cases s with
  | nil => simp only [List.length_nil, splitGo]
  | cons c cs =>
    simp only [List.length_cons, splitGo, h]

theorem splitOnSub_some {pat s : List Char} {i : Nat} (hpat : pat ≠ [])
    (h : findSub pat s = some i) :
    splitOnSub pat s = s.take i :: splitOnSub pat (s.drop (i + pat.length)) := by
  unfold splitOnSub
  have hlt : i < s.length := findSub_le_length hpat h
  cases s with
  | nil => simp at hlt
  | cons c cs =>
    simp only [List.length_cons, splitGo, h]
    congr 1
    have hplen : 1 ≤ pat.length := by
      cases pat with
      | nil => exact absurd rfl hpat
      | cons p ps => simp
    apply splitGo_fuel hpat
    · rw [List.length_drop]
      simp only [List.length_cons] at hlt ⊢
      omega
    · exact le_rfl

/-- The stage-specific response post-processing of
`BookAgents.generate_content` (agents.py).  Every branch of the Python
code that misses its marker falls through to `return response`; the
marker loops of the world_builder and character_generator branches return
the full response whether or not an alternate marker is found, so those
branches reduce to the identity. -/
def extract_response (agent_name : String) (response : List Char) : List Char :=
  if agent_name = "outline_creator" then
    match findSub outlineMarker response, findSub endOutlineMarker response with
    | some st, some en =>
      (response.drop st).take (en + endOutlineMarker.length - st)
    | _, _ => response
  else if agent_name = "writer" then
    if (findSub sceneFinalMarker response).isSome then
      match splitOnSub sceneFinalMarker response with
      | _ :: p1 :: _ => pyStrip p1
      | _ => response
    else response
  else if agent_name = "world_builder" then
    match findSub "WORLD_ELEMENTS:".toList response with
    | some st => pyStrip (response.drop st)
    | none => response
  else if agent_name = "story_planner" then
    match findSub "STORY_ARC:".toList response with
    | some st => pyStrip (response.drop st)
    | none => response
  else if agent_name = "character_generator" then
    match findSub "CHARACTER_PROFILES:".toList response with
    | some st => pyStrip (response.drop st)
    | none => response
  else response

/-- C6 counterexample: with two `SCENE FINAL:` markers in the response,
the writer extraction returns the segment strictly between the first and
second marker, not the whole trimmed text after the first marker as the
claim states.  The first marker sits at index 6; the trimmed text after
it is `good SCENE FINAL: extra`, but the code returns `good`. -/
theorem c6_counterexample :
    findSub sceneFinalMarker "draft SCENE FINAL: good SCENE FINAL: extra".toList
      = some 6 ∧
    pyStrip (("draft SCENE FINAL: good SCENE FINAL: extra".toList).drop
      (6 + sceneFinalMarker.length)) = "good SCENE FINAL: extra".toList ∧
    extract_response "writer" "draft SCENE FINAL: good SCENE FINAL: extra".toList
      = "good".toList ∧
    "good".toList ≠ "good SCENE FINAL: extra".toList :=
  ⟨by decide, by decide, by decide, by decide⟩

/-- C6 (amended): when the writer response contains `SCENE FINAL:` (first
occurrence at `i`), extraction returns the text after that marker up to
the next occurrence of the marker if there is one (the first split
segment), trimmed; when the marker is absent the full response is
returned unchanged. -/
theorem c6_writer_extraction (r : List Char) :
    (∀ i, findSub sceneFinalMarker r = some i →
      extract_response "writer" r =
        pyStrip (match findSub sceneFinalMarker (r.drop (i + sceneFinalMarker.length)) with
          | some p => (r.drop (i + sceneFinalMarker.length)).take p
          | none => r.drop (i + sceneFinalMarker.length))) ∧
    (findSub sceneFinalMarker r = none → extract_response "writer" r = r) := by
  constructor
  · intro i hi
    unfold extract_response
    rw [if_neg (by decide), if_pos rfl, hi]
    have hsplit := splitOnSub_some (by decide : sceneFinalMarker ≠ []) hi
    rw [hsplit]
    cases hf : findSub sceneFinalMarker (r.drop (i + sceneFinalMarker.length)) with
    | none =>
      rw [splitOnSub_none (by decide : sceneFinalMarker ≠ []) hf]
      rfl
    | some p =>
      rw [splitOnSub_some (by decide : sceneFinalMarker ≠ []) hf]
      rfl
  · intro hn
    unfold extract_response
    rw [if_neg (by decide), if_pos rfl, hn]
    rfl

/-- Witness for C6 at the single-marker example of the specification. -/
theorem c6_witness :
    extract_response "writer" "draft text SCENE FINAL: final text here".toList
      = "final text here".toList := by
  have h := (c6_writer_extraction "draft text SCENE FINAL: final text here".toList).1
    11 (by decide)
  rw [h]
  decide

/-! ## Chat request builders (agents.py) -/

structure ChatMsg where
  role : List Char
  content : List Char
deriving DecidableEq

/-- The role coercion of the history loop in both builders: Python keeps
the role `user` and maps every other role to `assistant`. -/
def mapHistoryEntry (e : ChatMsg) : ChatMsg :=
  ⟨if e.role = "user".toList then "user".toList else "assistant".toList, e.content⟩

set_option linter.unusedVariables false in
/-- The message list built by `generate_chat_response` (agents.py, the
synchronous world chat builder): the stage system prompt followed by the
mapped history.  The `user_message` parameter of the Python function is
never appended; it is kept here to mirror the signature. -/
def generate_chat_response_messages (sysPrompt : List Char) (history : List ChatMsg)
    (user_message : List Char) : List ChatMsg :=
  ⟨"system".toList, sysPrompt⟩ :: history.map mapHistoryEntry

/-- The message list built by `generate_chat_response_stream` (agents.py):
the stage system prompt, the mapped history, then the latest user
message. -/
def generate_chat_response_stream_messages (sysPrompt : List Char)
    (history : List ChatMsg) (user_message : List Char) : List ChatMsg :=
  ⟨"system".toList, sysPrompt⟩ :: history.map mapHistoryEntry
    ++ [⟨"user".toList, user_message⟩]

/-- C7 counterexample: the synchronous builder does not append the user
turn (its message list ends with the history), and the streaming builder
rewrites a `system` role inside the history to `assistant`, so the claim
that both builders produce system prompt, history unchanged, then the
user turn is false on the code. -/
theorem c7_counterexample :
    (generate_chat_response_messages "P".toList
        [⟨"user".toList, "hi".toList⟩, ⟨"assistant".toList, "yo".toList⟩]
        "hello".toList
      ≠ ⟨"system".toList, "P".toList⟩ ::
        ([⟨"user".toList, "hi".toList⟩, ⟨"assistant".toList, "yo".toList⟩]
          ++ [⟨"user".toList, "hello".toList⟩])) ∧
    (generate_chat_response_stream_messages "P".toList
        [⟨"system".toList, "inst".toList⟩] "hello".toList
      ≠ ⟨"system".toList, "P".toList⟩ ::
        ([⟨"system".toList, "inst".toList⟩] ++ [⟨"user".toList, "hello".toList⟩])) :=
  ⟨by decide, by decide⟩

/-- C7 (amended): for histories whose entries are user or assistant
roled, the streaming builder produces the stage system message first,
then the history unchanged and in order, then the user turn as the final
user message; the synchronous builder produces the system message and
the unchanged history but omits the user turn entirely. -/
theorem c7_request_building (sysPrompt : List Char) (history : List ChatMsg)
    (userTurn : List Char)
    (hroles : ∀ e ∈ history, e.role = "user".toList ∨ e.role = "assistant".toList) :
    generate_chat_response_stream_messages sysPrompt history userTurn
      = ⟨"system".toList, sysPrompt⟩ :: history ++ [⟨"user".toList, userTurn⟩] ∧
    generate_chat_response_messages sysPrompt history userTurn
      = ⟨"system".toList, sysPrompt⟩ :: history := by
  have hmap : history.map mapHistoryEntry = history := by
    induction history with
    | nil => rfl
    | cons e es ih =>
      rw [List.map_cons, ih (fun x hx => hroles x (List.mem_cons_of_mem e hx))]
      obtain ⟨rl, ct⟩ := e
      rcases hroles ⟨rl, ct⟩ (List.mem_cons_self _ _) with h | h
      · simp only at h
        subst h
        simp [mapHistoryEntry]
      · simp only at h
        subst h
        simp [mapHistoryEntry]
  constructor
  · unfold generate_chat_response_stream_messages
    rw [hmap]
  · unfold generate_chat_response_messages
    rw [hmap]

/-- Witness for C7 at a concrete two-turn history. -/
theorem c7_witness :
    generate_chat_response_stream_messages "P".toList
      [⟨"user".toList, "a".toList⟩, ⟨"assistant".toList, "b".toList⟩] "next".toList
      = ⟨"system".toList, "P".toList⟩ ::
        [⟨"user".toList, "a".toList⟩, ⟨"assistant".toList, "b".toList⟩]
        ++ [⟨"user".toList, "next".toList⟩] ∧
    generate_chat_response_messages "P".toList
      [⟨"user".toList, "a".toList⟩, ⟨"assistant".toList, "b".toList⟩] "next".toList
      = ⟨"system".toList, "P".toList⟩ ::
        [⟨"user".toList, "a".toList⟩, ⟨"assistant".toList, "b".toList⟩] :=
  c7_request_building "P".toList
    [⟨"user".toList, "a".toList⟩, ⟨"assistant".toList, "b".toList⟩] "next".toList
    (by decide)

/-! ## Streaming generators (web_app.py)

The streaming routes wrap a Python generator around the upstream chunk
stream.  Observable behaviour is modelled as an ordered trace of actions:
events handed to the consumer (the content field payload of each
server-sent event) and writes of durable storage.  Generator semantics is
captured by `consumeEvents`: when the consumer requests `n` events,
exactly the actions up to and including the n-th emit execute; closing
the generator afterwards (client disconnect) skips everything after the
last served emit. -/

structure StreamDelta where
  content : Option (List Char)
deriving DecidableEq

/-- One chunk of the upstream completion stream: its (possibly empty)
choice list, each choice carrying an optional delta object. -/
structure StreamChunk where
  choices : List (Option StreamDelta)
deriving DecidableEq

/-- The guard of every streaming loop: the chunk has a nonempty choice
list, the first choice has a delta object, and its content is not None;
when it passes, the delta content is forwarded. -/
def chunkContent (c : StreamChunk) : Option (List Char) :=
  match c.choices with
  | some d :: _ => d.content
  | _ => none

def doneMarker : List Char := "[DONE]".toList

inductive StoreFile
  | worldTxt
  | charactersTxt
  | outlineTxt
  | outlineJson
  | chaptersJson
deriving DecidableEq

/-- One observable step of a streaming generator: an event handed to the
consumer, a write of a text file, or a write of a chapter list serialized
to a JSON file. -/
inductive Act
  | emit (payload : List Char)
  | persistText (file : StoreFile) (content : List Char)
  | persistChapters (file : StoreFile) (chapters : List ChapterRec)
deriving DecidableEq

def Act.isPersist : Act → Bool
  | .emit _ => false
  | .persistText _ _ => true
  | .persistChapters _ _ => true

/-- The re.sub newline cleanup applied to the finalized world text:
collapse every run of newlines to a single newline. -/
def reSubNlGo (prevNl : Bool) : List Char → List Char
  | [] => []
  | c :: s =>
    if c = '\n' then
      if prevNl then reSubNlGo true s else '\n' :: reSubNlGo true s
    else c :: reSubNlGo false s

def reSubNlPlus (s : List Char) : List Char := reSubNlGo false s

/-- The chunk loop shared by the finalize generators of `web_app.py`:
each content-bearing chunk is emitted as an event and appended to the
`collected_content` list; when the stream is exhausted, the joined text
is post-processed and persisted (`post`), then the completion marker is
emitted. -/
def finalizeLoop (post : List Char → List Act) :
    List (List Char) → List StreamChunk → List Act
  | collected, [] => post collected.join ++ [Act.emit doneMarker]
  | collected, ch :: rest =>
    match chunkContent ch with
    | some content => Act.emit content :: finalizeLoop post (collected ++ [content]) rest
    | none => finalizeLoop post collected rest

/-- Trace of the generator of `finalize_world_stream`: heartbeat, deltas,
then strip the joined text, collapse newline runs, write `world.txt`, and
emit the completion marker.  (The Flask session write is not durable
storage and is not modelled.) -/
def finalize_world_stream_trace (chunks : List StreamChunk) : List Act :=
  Act.emit [] :: finalizeLoop (fun complete =>
    [Act.persistText .worldTxt (reSubNlPlus (pyStrip complete))]) [] chunks

/-- Trace of the generator of `finalize_characters_stream`: heartbeat,
deltas, then strip the joined text and write `characters.txt`. -/
def finalize_characters_stream_trace (chunks : List StreamChunk) : List Act :=
  Act.emit [] :: finalizeLoop (fun complete =>
    [Act.persistText .charactersTxt (pyStrip complete)]) [] chunks

/-- Trace of the generator of `finalize_outline_stream`: heartbeat,
deltas, then strip the joined text, write `outline.txt`, parse the
chapters (which itself writes `chapters.json`), and write
`outline.json`. -/
def finalize_outline_stream_trace (chunks : List StreamChunk)
    (num_chapters : Nat) : List Act :=
  Act.emit [] :: finalizeLoop (fun complete =>
    [Act.persistText .outlineTxt (pyStrip complete),
     Act.persistChapters .chaptersJson
       (parse_outline_to_chapters (pyStrip complete) num_chapters),
     Act.persistChapters .outlineJson
       (parse_outline_to_chapters (pyStrip complete) num_chapters)]) [] chunks

/-- The event payload sequence of the plain chat streaming generator of
`world_chat_stream` (no persistence in that route). -/
def chatLoop : List StreamChunk → List (List Char)
  | [] => [doneMarker]
  | ch :: rest =>
    match chunkContent ch with
    | some content => content :: chatLoop rest
    | none => chatLoop rest

def world_chat_stream_generate (chunks : List StreamChunk) : List (List Char) :=
  [] :: chatLoop chunks

/-- Generator semantics of partial consumption: the actions that actually
execute when the consumer requests `n` events.  Non-event actions sitting
before the next event run on the way to it; nothing past the last served
event runs. -/
def consumeEvents : Nat → List Act → List Act
  | _, [] => []
  | 0, _ => []
  | n + 1, Act.emit p :: ts => Act.emit p :: consumeEvents n ts
  | n + 1, Act.persistText f c :: ts => Act.persistText f c :: consumeEvents (n + 1) ts
  | n + 1, Act.persistChapters f c :: ts =>
    Act.persistChapters f c :: consumeEvents (n + 1) ts

def eventsOf (tr : List Act) : List (List Char) :=
  tr.filterMap (fun a => match a with | Act.emit p => some p | _ => none)

def writesOf (tr : List Act) : List (StoreFile × List Char) :=
  tr.filterMap (fun a => match a with | Act.persistText f c => some (f, c) | _ => none)

theorem finalizeLoop_eq (post : List Char → List Act) :
    ∀ (chunks : List StreamChunk) (collected : List (List Char)),
      finalizeLoop post collected chunks
        = (chunks.filterMap chunkContent).map Act.emit
          ++ post (collected.join ++ (chunks.filterMap chunkContent).join)
          ++ [Act.emit doneMarker] := by
  intro chunks
  induction chunks with
  | nil =>
    intro collected
    simp [finalizeLoop]
  | cons ch rest ih =>
    intro collected
    unfold finalizeLoop
    cases hc : chunkContent ch with
    | some v =>
      dsimp only
      rw [ih (collected ++ [v])]
      rw [List.filterMap_cons_some hc]
      simp [List.join_append, List.append_assoc]
    | none =>
      dsimp only
      rw [ih collected]
      rw [List.filterMap_cons_none hc]

theorem eventsOf_append (a b : List Act) : eventsOf (a ++ b) = eventsOf a ++ eventsOf b :=
  List.filterMap_append a b _

theorem writesOf_append (a b : List Act) : writesOf (a ++ b) = writesOf a ++ writesOf b :=
  List.filterMap_append a b _

theorem eventsOf_cons_emit (p : List Char) (ts : List Act) :
    eventsOf (Act.emit p :: ts) = p :: eventsOf ts := rfl

theorem eventsOf_persist_single (f : StoreFile) (c : List Char) :
    eventsOf [Act.persistText f c] = [] := rfl

theorem eventsOf_singleton_done : eventsOf [Act.emit doneMarker] = [doneMarker] := rfl

theorem writesOf_cons_emit (p : List Char) (ts : List Act) :
    writesOf (Act.emit p :: ts) = writesOf ts := rfl

theorem writesOf_persist_single (f : StoreFile) (c : List Char) :
    writesOf [Act.persistText f c] = [(f, c)] := rfl

theorem writesOf_singleton_done : writesOf [Act.emit doneMarker] = [] := rfl

theorem eventsOf_emits (l : List (List Char)) : eventsOf (l.map Act.emit) = l := by
  induction l with
  | nil => rfl
  | cons x xs ih =>
    simp only [List.map_cons]
    rw [eventsOf_cons_emit]
    exact congrArg (x :: ·) ih

theorem writesOf_emits (l : List (List Char)) : writesOf (l.map Act.emit) = [] := by
  induction l with
  | nil => rfl
  | cons x xs ih =>
    simp only [List.map_cons]
    rw [writesOf_cons_emit]
    exact ih

/-! ## Claim C9: the chat stream event sequence -/

/-- C9: the generator of the chat streaming endpoint emits the empty
heartbeat event first, then exactly the delta contents of the upstream
chunks, in arrival order, one event per content-bearing chunk (no drops,
no duplicates), and closes with the terminal `[DONE]` payload. -/
theorem c9_sse_event_sequence (chunks : List StreamChunk) :
    world_chat_stream_generate chunks
      = [] :: chunks.filterMap chunkContent ++ [doneMarker] := by
  unfold world_chat_stream_generate
  congr 1
  induction chunks with
  | nil => rfl
  | cons ch rest ih =>
    unfold chatLoop
    cases hc : chunkContent ch with
    | some v =>
      dsimp only
      rw [List.filterMap_cons_some hc, ih]
      rfl
    | none =>
      dsimp only
      rw [List.filterMap_cons_none hc, ih]

/-! ## Claim C4: what the finalize generators persist -/

/-- Modelled from the spec words, for comparison only: collapse every run
of three or more newlines to exactly two (the paragraph-preserving
normalization the claim asserts for world and character documents).  The
code does not implement this. -/
def specCollapse3Go : Nat → List Char → List Char
  | _, [] => []
  | run, c :: s =>
    if c = '\n' then
      if run ≥ 2 then specCollapse3Go (run + 1) s
      else '\n' :: specCollapse3Go (run + 1) s
    else c :: specCollapse3Go 0 s

def specCollapse3Plus (s : List Char) : List Char := specCollapse3Go 0 s

def c4Chunks : List StreamChunk := [⟨[some ⟨some "a\n\n\nb".toList⟩]⟩]

/-- C4 counterexample: for the delta sequence whose concatenation is
`a`, three newlines, `b`, the claim says both the world and the character
finalizers persist `a` two newlines `b` (runs of three or more newlines
collapsed to exactly two).  The code persists `a` one newline `b` for the
world document (every newline run collapsed to one) and the unmodified
`a` three newlines `b` for the character document (no collapsing at
all). -/
theorem c4_counterexample :
    writesOf (finalize_world_stream_trace c4Chunks)
      = [(StoreFile.worldTxt, "a\nb".toList)] ∧
    writesOf (finalize_characters_stream_trace c4Chunks)
      = [(StoreFile.charactersTxt, "a\n\n\nb".toList)] ∧
    specCollapse3Plus (pyStrip (c4Chunks.filterMap chunkContent).join)
      = "a\n\nb".toList ∧
    "a\nb".toList ≠ "a\n\nb".toList ∧
    "a\n\n\nb".toList ≠ "a\n\nb".toList :=
  ⟨by decide, by decide, by decide, by decide, by decide⟩

/-- C4 (amended): on normal stream termination each finalize generator
emits the heartbeat, every delta in order, and the terminal marker, and
persists exactly the normalization of the concatenated deltas — for the
world document the strip of the whole text with every newline run
collapsed to a single newline, and for the character document the strip
of the whole text with no newline collapsing. -/
theorem c4_finalize_normalization (chunks : List StreamChunk) :
    eventsOf (finalize_world_stream_trace chunks)
      = [] :: chunks.filterMap chunkContent ++ [doneMarker] ∧
    writesOf (finalize_world_stream_trace chunks)
      = [(StoreFile.worldTxt, reSubNlPlus (pyStrip (chunks.filterMap chunkContent).join))] ∧
    eventsOf (finalize_characters_stream_trace chunks)
      = [] :: chunks.filterMap chunkContent ++ [doneMarker] ∧
    writesOf (finalize_characters_stream_trace chunks)
      = [(StoreFile.charactersTxt, pyStrip (chunks.filterMap chunkContent).join)] := by
  have hw := finalizeLoop_eq (fun complete =>
    [Act.persistText .worldTxt (reSubNlPlus (pyStrip complete))]) chunks []
  have hc := finalizeLoop_eq (fun complete =>
    [Act.persistText .charactersTxt (pyStrip complete)]) chunks []
  simp only [List.join, List.nil_append] at hw hc
  refine ⟨?_, ?_, ?_, ?_⟩
  · unfold finalize_world_stream_trace
    rw [eventsOf_cons_emit, hw, eventsOf_append, eventsOf_append, eventsOf_emits,
      eventsOf_persist_single, eventsOf_singleton_done, List.append_nil]
    rfl
  · unfold finalize_world_stream_trace
    rw [writesOf_cons_emit, hw, writesOf_append, writesOf_append, writesOf_emits,
      writesOf_persist_single, writesOf_singleton_done, List.nil_append,
      List.append_nil]
    rfl
  · unfold finalize_characters_stream_trace
    rw [eventsOf_cons_emit, hc, eventsOf_append, eventsOf_append, eventsOf_emits,
      eventsOf_persist_single, eventsOf_singleton_done, List.append_nil]
    rfl
  · unfold finalize_characters_stream_trace
    rw [writesOf_cons_emit, hc, writesOf_append, writesOf_append, writesOf_emits,
      writesOf_persist_single, writesOf_singleton_done, List.nil_append,
      List.append_nil]
    rfl

/-! ## Claim C5: cancellation persists nothing -/

theorem consumeEvents_loop_no_persist (post : List Char → List Act) :
    ∀ (chunks : List StreamChunk) (collected : List (List Char)) (n : Nat),
      n ≤ (chunks.filterMap chunkContent).length →
      ∀ a ∈ consumeEvents n (finalizeLoop post collected chunks),
        a.isPersist = false := by
  intro chunks
  induction chunks with
  | nil =>
    intro collected n hn a ha
    have hn0 : n = 0 := by simpa using hn
    subst hn0
    cases hfl : finalizeLoop post collected [] with
    | nil => rw [hfl] at ha; simp [consumeEvents] at ha
    | cons x xs => rw [hfl] at ha; simp [consumeEvents] at ha
  | cons ch rest ih =>
    intro collected n hn a ha
    unfold finalizeLoop at ha
    cases hc : chunkContent ch with
    | some v =>
      rw [hc] at ha
      dsimp only at ha
      cases n with
      | zero => simp [consumeEvents] at ha
      | succ n =>
        rw [show consumeEvents (n + 1)
            (Act.emit v :: finalizeLoop post (collected ++ [v]) rest)
          = Act.emit v :: consumeEvents n (finalizeLoop post (collected ++ [v]) rest)
          from rfl] at ha
        rcases List.mem_cons.mp ha with ha | ha
        · subst ha; rfl
        · apply ih (collected ++ [v]) n _ a ha
          rw [List.filterMap_cons_some hc] at hn
          simp only [List.length_cons] at hn
          omega
    | none =>
      rw [hc] at ha
      dsimp only at ha
      apply ih collected n _ a ha
      rw [List.filterMap_cons_none hc] at hn
      exact hn

/-- C5: a streaming finalize generator that is cancelled before the whole
delta stream has been consumed (the consumer received at most the
heartbeat plus all deltas, and never requested the event after the last
delta) executes no persist action at all: nothing is written to durable
storage for the world, character, or outline stage.  Persistence runs
only on the request that follows the final delta. -/
theorem c5_no_partial_persist (chunks : List StreamChunk) (m n : Nat)
    (hn : n ≤ (chunks.filterMap chunkContent).length + 1) :
    (∀ a ∈ consumeEvents n (finalize_world_stream_trace chunks),
      a.isPersist = false) ∧
    (∀ a ∈ consumeEvents n (finalize_characters_stream_trace chunks),
      a.isPersist = false) ∧
    (∀ a ∈ consumeEvents n (finalize_outline_stream_trace chunks m),
      a.isPersist = false) := by
  have key : ∀ (post : List Char → List Act) a,
      a ∈ consumeEvents n (Act.emit [] :: finalizeLoop post [] chunks) →
      a.isPersist = false := by
    intro post a ha
    cases n with
    | zero => simp [consumeEvents] at ha
    | succ n =>
      rw [show consumeEvents (n + 1) (Act.emit [] :: finalizeLoop post [] chunks)
        = Act.emit [] :: consumeEvents n (finalizeLoop post [] chunks) from rfl] at ha
      rcases List.mem_cons.mp ha with ha | ha
      · subst ha; rfl
      · exact consumeEvents_loop_no_persist post chunks [] n (by omega) a ha
  exact ⟨fun a ha => key _ a ha, fun a ha => key _ a ha, fun a ha => key _ a ha⟩

def c5Chunks : List StreamChunk :=
  List.replicate 10 ⟨[some ⟨some ['x']⟩]⟩

/-- Witness for C5: a stream of ten deltas cancelled after the heartbeat
and three deltas (four served events) persists nothing on any of the
three finalize routes. -/
theorem c5_witness :
    (∀ a ∈ consumeEvents 4 (finalize_world_stream_trace c5Chunks),
      a.isPersist = false) ∧
    (∀ a ∈ consumeEvents 4 (finalize_characters_stream_trace c5Chunks),
      a.isPersist = false) ∧
    (∀ a ∈ consumeEvents 4 (finalize_outline_stream_trace c5Chunks 10),
      a.isPersist = false) :=
  c5_no_partial_persist c5Chunks 10 4 (by decide)

/-! ## Concrete evaluations of the embedded parser -/

example : scanHeaders ("Chapter 1: A\nx\nChapter 2: B".toList) =
    [(1, "A".toList, "Chapter 1: A\nx\nChapter 2: B".toList),
     (2, "B".toList, "Chapter 2: B".toList)] := by decide

example : parse_outline_to_chapters ("Chapter 2: B\nbb\nChapter 1: A\naa".toList) 5 =
    [⟨1, "A".toList, "aa".toList⟩, ⟨2, "B".toList, "bb".toList⟩] := by decide

example : parse_outline_to_chapters ("no headers at all".toList) 2 =
    [⟨1, "Chapter 1".toList, "Content for chapter 1".toList⟩,
     ⟨2, "Chapter 2".toList, "Content for chapter 2".toList⟩] := by decide
